import Mathlib

/-!
Verification of `docs/autogen.py`, the documentation-generation script of the
spektral repository.  The script is embedded shallowly: Python strings become
`List Char`, the regex-driven text transformations become executable Lean
functions that mirror the source line by line, and the file-system effects
become pure functions over association lists of paths and contents.
Recursions that are not structural in Python (scanning loops that skip over a
matched region) take an explicit fuel argument; callers pass a fuel that
provably bounds the number of iterations, so the functions evaluate by `rfl`
or `decide` on concrete inputs.
-/

namespace Autogen

/-- Convert a Lean string literal to the character-list representation used
throughout this development. -/
def chars (s : String) : List Char := s.data

/-- Python `\s` whitespace class: space, tab, newline, carriage return,
vertical tab, form feed. -/
def isPySpace (c : Char) : Bool :=
  c = ' ' ∨ c = '\t' ∨ c = '\n' ∨ c = '\r' ∨ c = Char.ofNat 11 ∨ c = Char.ofNat 12

/-- Character class `[^\s\\(]` used by the top-level list-item regex of
`process_list_block`: anything but whitespace, backslash and an opening
parenthesis. -/
def isClassChar (c : Char) : Bool :=
  ¬ isPySpace c ∧ c ≠ '\\' ∧ c ≠ '('

/-- Python `str.find`: index of the leftmost occurrence of `pat`, `-1` when
absent.  `find` of the empty pattern is `0`, as in Python. -/
def pyFindI (s pat : List Char) : Int :=
  if pat.isPrefixOf s then 0
  else
    match s with
    | [] => -1
    | _ :: cs =>
      let r := pyFindI cs pat
      if r < 0 then r else r + 1

/-- Python `str.find(pat, start)`: leftmost occurrence at or after `start`,
as an absolute index, `-1` when absent. -/
def pyFindFrom (s pat : List Char) (start : Nat) : Int :=
  let r := pyFindI (s.drop start) pat
  if r < 0 then -1 else r + start

/-- Python slice `s[n:]` for a possibly negative `n`. -/
def pyDropI (n : Int) (l : List Char) : List Char :=
  if 0 ≤ n then l.drop n.toNat else l.drop (l.length - (-n).toNat)

/-- Python slice `s[start:stop]` for a natural `start` and possibly negative
`stop`. -/
def pySliceTo (l : List Char) (start : Nat) (stop : Int) : List Char :=
  (if 0 ≤ stop then l.take stop.toNat else l.take (l.length - (-stop).toNat)).drop start

/-- Worker for Python `str.replace` (all occurrences, scanning left to
right).  The fuel only bounds the recursion; with fuel `> s.length` it never
runs out, and when it does run out the remaining input is returned
unchanged. -/
def replaceGo (pat rep : List Char) : Nat → List Char → List Char
  | _, [] => []
  | 0, s => s
  | fuel + 1, c :: cs =>
    if pat ≠ [] ∧ pat.isPrefixOf (c :: cs) then
      rep ++ replaceGo pat rep fuel ((c :: cs).drop pat.length)
    else
      c :: replaceGo pat rep fuel cs

/-- Python `s.replace(pat, rep)`: replace every non-overlapping occurrence,
left to right.  An empty pattern inserts `rep` before every character and at
the end, as in Python. -/
def pyReplace (s pat rep : List Char) : List Char :=
  if pat = [] then rep ++ s.foldr (fun c acc => c :: rep ++ acc) []
  else replaceGo pat rep (s.length + 1) s

/-- Worker for Python `str.replace` with `count = 1`. -/
def replace1Go (pat rep : List Char) : List Char → List Char
  | [] => []
  | c :: cs =>
    if pat.isPrefixOf (c :: cs) then rep ++ (c :: cs).drop pat.length
    else c :: replace1Go pat rep cs

/-- Python `s.replace(pat, rep, 1)`: replace only the leftmost occurrence. -/
def pyReplace1 (s pat rep : List Char) : List Char :=
  if pat = [] then rep ++ s else replace1Go pat rep s

/-- Python `s.split("\n")`: the result is always nonempty. -/
def splitNl : List Char → List (List Char)
  | [] => [[]]
  | c :: cs =>
    match splitNl cs with
    | [] => if c = '\n' then [[], []] else [[c]]
    | r :: rs => if c = '\n' then [] :: r :: rs else (c :: r) :: rs

/-- Python `"\n".join(lines)`. -/
def joinNl : List (List Char) → List Char
  | [] => []
  | [l] => l
  | l :: ls => l ++ '\n' :: joinNl ls

/-- Python `line.lstrip(" ")`. -/
def lstripSpaces (l : List Char) : List Char := l.dropWhile (· = ' ')

/-- Strip the leading space characters of every line, the way
`process_docstring` does it: split on newlines, `lstrip(" ")` each line,
rejoin. -/
def lstripLines (d : List Char) : List Char :=
  joinNl ((splitNl d).map lstripSpaces)

/-- Embeds `count_leading_spaces`: the index of the first non-whitespace
character (`re.search(r"\S", s)`), or `0` when the line has none. -/
def count_leading_spaces (l : List Char) : Nat :=
  match l.findIdx? (fun c => ¬ isPySpace c) with
  | some i => i
  | none => 0

/-- Python `re.split(r"\.(?!\d)", s)`: split at every dot that is not
followed by a digit (a dot at the end of the string also splits). -/
def splitDots : List Char → List (List Char)
  | [] => [[]]
  | c :: cs =>
    let sep : Bool := c = '.' && (match cs with | d :: _ => ! d.isDigit | [] => true)
    match splitDots cs with
    | [] => if sep then [[], []] else [[c]]
    | r :: rs => if sep then [] :: r :: rs else (c :: r) :: rs

/-- Python `".".join(parts)`. -/
def joinDots : List (List Char) → List Char
  | [] => []
  | [l] => l
  | l :: ls => l ++ '.' :: joinDots ls

/-- Association-list lookup (first entry wins), modelling a read of a file
from the file-system state. -/
def lookupAssoc : List (List Char × List Char) → List Char → Option (List Char)
  | [], _ => none
  | (k', v') :: rest, k => if k' = k then some v' else lookupAssoc rest k

/-- Association-list update: overwrite in place when the key exists,
append otherwise (a file write). -/
def updateAssoc : List (List Char × List Char) → List Char → List Char →
    List (List Char × List Char)
  | [], k, v => [(k, v)]
  | (k', v') :: rest, k, v =>
    if k' = k then (k, v) :: rest else (k', v') :: updateAssoc rest k v

/-! ## The signature extractor (`get_function_signature` and friends) -/

/-- A Python default value as the signature renderer sees it: either a
string (which is re-quoted) or any other value, kept as its `str()`
rendering. -/
inductive PyVal where
  | pstr (s : List Char)
  | other (repr : List Char)
deriving DecidableEq, Inhabited

/-- Embeds the default-value rendering of `get_function_signature`:
`isinstance(v, str)` values get surrounding single quotes, everything else
is used via `str(v)`. -/
def renderVal : PyVal → List Char
  | .pstr s => '\'' :: s ++ ['\'']
  | .other r => r

/-- The introspected argument specification of a callable, as
`inspect.getargspec`/`getfullargspec` deliver it: positional argument names,
the defaults aligned to the tail of the positional arguments, and the
keyword-only arguments paired with their defaults (the source appends the
keyword-only names to `args` and their defaults to `defaults`). -/
structure ArgSpec where
  args : List (List Char)
  defaults : List PyVal
  kwonly : List (List Char × PyVal)
deriving DecidableEq

/-- The argument-name list after the source extends `signature.args` with
the keyword-only arguments. -/
def sigAllArgs (spec : ArgSpec) : List (List Char) :=
  spec.args ++ spec.kwonly.map Prod.fst

/-- The defaults list after the source appends the keyword-only defaults. -/
def sigAllDefaults (spec : ArgSpec) : List PyVal :=
  spec.defaults ++ spec.kwonly.map Prod.snd

/-- The argument names actually rendered: for a method the first declared
parameter (`self`) is removed. -/
def sigUsedArgs (method : Bool) (spec : ArgSpec) : List (List Char) :=
  if method then (sigAllArgs spec).drop 1 else sigAllArgs spec

/-- The positional (default-free) part: `args[:-len(defaults)]` when there
are defaults, all of `args` otherwise. -/
def sigPos (method : Bool) (spec : ArgSpec) : List (List Char) :=
  if sigAllDefaults spec ≠ [] then
    (sigUsedArgs method spec).take
      ((sigUsedArgs method spec).length - (sigAllDefaults spec).length)
  else sigUsedArgs method spec

/-- The keyword part: `zip(args[-len(defaults):], defaults)` when there are
defaults, empty otherwise. -/
def sigKwargs (method : Bool) (spec : ArgSpec) : List (List Char × PyVal) :=
  if sigAllDefaults spec ≠ [] then
    ((sigUsedArgs method spec).drop
      ((sigUsedArgs method spec).length - (sigAllDefaults spec).length)).zip
      (sigAllDefaults spec)
  else []

/-- The rendered parameter tokens, in order: positional names, then
`name=value` pairs. -/
def sigTokens (method : Bool) (spec : ArgSpec) : List (List Char) :=
  sigPos method spec ++ (sigKwargs method spec).map (fun av => av.1 ++ '=' :: renderVal av.2)

/-- Embeds `clean_module_name` (the identity in this repository). -/
def clean_module_name (name : List Char) : List Char := name

/-- The string `st` as the source has built it just before the final slice:
`module.name(` with every rendered token followed by `", "`. -/
def sigSt (method : Bool) (spec : ArgSpec) (module fnName : List Char) : List Char :=
  clean_module_name module ++ '.' :: fnName ++ '(' ::
    (sigTokens method spec).foldr (fun t acc => t ++ ',' :: ' ' :: acc) []

/-- Embeds `post_process_signature`: split the signature at dots not
followed by a digit; when there are at least four parts and the second is
`layers` or `utils`, collapse the module path to the two-level
`spektral.layers.`/`spektral.utils.` prefix followed by the parts from the
fourth on; otherwise return the signature unchanged. -/
def post_process_signature (signature : List Char) : List Char :=
  let parts := splitDots signature
  if 4 ≤ parts.length then
    let s1 := if parts.getD 1 [] = chars "layers" then
        chars "spektral.layers." ++ joinDots (parts.drop 3) else signature
    if parts.getD 1 [] = chars "utils" then
      chars "spektral.utils." ++ joinDots (parts.drop 3)
    else s1
  else signature

/-- Embeds `get_function_signature`: build `module.name(` plus the rendered
tokens each followed by `", "`, slice off the last two characters when the
source's `if kwargs or args:` is truthy, close the parenthesis, and
post-process.  `kwargs` is a `zip` object whenever `defaults` is nonempty
and a `zip` object is truthy in Python 3 even when it yields nothing, so
the guard is `defaults` nonempty or the sliced positional list nonempty —
when both the rendered tokens are empty and `defaults` is nonempty the
slice cuts into `module.name(` itself.  The `ArgSpec` stands for whatever
`inspect.getargspec`/`getfullargspec` produced (for a wrapped callable, the
spec of `_original_function`). -/
def get_function_signature (method : Bool) (spec : ArgSpec)
    (module fnName : List Char) : List Char :=
  post_process_signature
    (if sigAllDefaults spec ≠ [] ∨ sigPos method spec ≠ [] then
      (sigSt method spec module fnName).dropLast.dropLast ++ [')']
    else sigSt method spec module fnName ++ [')'])

/-- Embeds `get_class_signature`.  `init = some (initModule, spec)` models a
class whose `__init__` can be introspected; `none` models the
`TypeError`/`AttributeError` fallback for a class with no explicit
constructor.  In the first case the source renders the `__init__` signature
(as a method, so `self` is dropped), substitutes the class name for
`__init__`, and post-processes once more. -/
def get_class_signature (init : Option (List Char × ArgSpec))
    (clsModule clsName : List Char) : List Char :=
  match init with
  | some (initModule, spec) =>
    post_process_signature
      (pyReplace (get_function_signature true spec initModule (chars "__init__"))
        (chars "__init__") clsName)
  | none =>
    post_process_signature (clean_module_name clsModule ++ '.' :: clsName ++ chars "()")

/-! ## Basic lemmas about the Python string primitives -/

theorem replaceGo_fuel (pat rep : List Char) :
    ∀ f₁ : Nat, ∀ s : List Char, ∀ f₂ : Nat, s.length < f₁ → s.length < f₂ →
      replaceGo pat rep f₁ s = replaceGo pat rep f₂ s := by
  intro f₁
  induction f₁ with
  | zero => intro s f₂ h₁ _; exact absurd h₁ (Nat.not_lt_zero _)
  | succ f ih =>
    intro s f₂ h₁ h₂
    cases s with
    | nil => simp [replaceGo]
    | cons c cs =>
      cases f₂ with
      | zero => exact absurd h₂ (Nat.not_lt_zero _)
      | succ g =>
        simp only [replaceGo]
        by_cases hb : pat ≠ [] ∧ pat.isPrefixOf (c :: cs)
        · simp only [if_pos hb]
          have hlen : pat.length ≤ (c :: cs).length :=
            (List.isPrefixOf_iff_prefix.mp hb.2).length_le
          have hpos : 1 ≤ pat.length := by
            cases hp : pat with
            | nil => exact absurd hp hb.1
            | cons a as => simp
          have hd : ((c :: cs).drop pat.length).length = (c :: cs).length - pat.length := by
            simp [List.length_drop]
          congr 1
          apply ih
          · omega
          · omega
        · simp only [if_neg hb]
          congr 1
          apply ih
          · simp at h₁ ⊢; omega
          · simp at h₂ ⊢; omega

theorem not_isPrefixOf_cons (pat : List Char) (h : Char) (t : List Char) (a : Char) (x : List Char)
    (hpat : pat = h :: t) (hne : h ≠ a) : ¬ pat.isPrefixOf (a :: x) := by
  intro hpre
  rw [List.isPrefixOf_iff_prefix, hpat, List.cons_prefix_cons] at hpre
  exact hne hpre.1

theorem replaceGo_of_not_mem (pat rep : List Char) (h : Char) (t : List Char)
    (hpat : pat = h :: t) :
    ∀ fuel : Nat, ∀ s : List Char, h ∉ s → replaceGo pat rep fuel s = s := by
  intro fuel
  induction fuel with
  | zero => intro s _; cases s <;> simp [replaceGo]
  | succ f ih =>
    intro s hs
    cases s with
    | nil => simp [replaceGo]
    | cons c cs =>
      have hne : h ≠ c := fun he => hs (he ▸ List.mem_cons_self c cs)
      simp only [replaceGo]
      rw [if_neg]
      · rw [ih cs (fun hc => hs (List.mem_cons_of_mem c hc))]
      · intro hb
        exact not_isPrefixOf_cons pat h t c cs hpat hne hb.2

theorem pyReplace_of_not_mem (s pat rep : List Char) (h : Char) (t : List Char)
    (hpat : pat = h :: t) (hs : h ∉ s) : pyReplace s pat rep = s := by
  unfold pyReplace
  rw [if_neg (by simp [hpat])]
  exact replaceGo_of_not_mem pat rep h t hpat _ s hs

theorem replaceGo_append (pat rep : List Char) (h : Char) (t : List Char)
    (hpat : pat = h :: t) (post : List Char) :
    ∀ pre : List Char, ∀ fuel : Nat, h ∉ pre → (pre ++ pat ++ post).length < fuel →
      replaceGo pat rep fuel (pre ++ pat ++ post) =
        pre ++ rep ++ replaceGo pat rep (post.length + 1) post := by
  intro pre
  induction pre with
  | nil =>
    intro fuel _ hlt
    cases fuel with
    | zero => exact absurd hlt (Nat.not_lt_zero _)
    | succ f =>
      have hsh : ([] : List Char) ++ pat ++ post = h :: (t ++ post) := by simp [hpat]
      rw [hsh]
      simp only [replaceGo]
      rw [if_pos]
      · have hdrop : (h :: (t ++ post)).drop pat.length = post := by
          have : h :: (t ++ post) = pat ++ post := by simp [hpat]
          rw [this, List.drop_left]
        rw [hdrop]
        have hplen : post.length < f := by
          simp [hpat] at hlt; omega
        rw [replaceGo_fuel pat rep f post (post.length + 1) hplen (Nat.lt_succ_self _)]
        simp
      · constructor
        · simp [hpat]
        · rw [List.isPrefixOf_iff_prefix]
          have : h :: (t ++ post) = pat ++ post := by simp [hpat]
          rw [this]
          exact List.prefix_append pat post
  | cons a pre' ih =>
    intro fuel hmem hlt
    cases fuel with
    | zero => exact absurd hlt (Nat.not_lt_zero _)
    | succ f =>
      have hne : h ≠ a := fun he => hmem (he ▸ List.mem_cons_self a pre')
      have hsh : (a :: pre') ++ pat ++ post = a :: (pre' ++ pat ++ post) := by simp
      rw [hsh]
      simp only [replaceGo]
      rw [if_neg]
      · rw [ih f (fun hc => hmem (List.mem_cons_of_mem a hc)) (by simp at hlt ⊢; omega)]
        simp
      · intro hb
        exact not_isPrefixOf_cons pat h t a _ hpat hne hb.2

theorem pyReplace_append (pre pat post rep : List Char) (h : Char) (t : List Char)
    (hpat : pat = h :: t) (hpre : h ∉ pre) :
    pyReplace (pre ++ pat ++ post) pat rep = pre ++ rep ++ pyReplace post pat rep := by
  unfold pyReplace
  rw [if_neg (by simp [hpat]), if_neg (by simp [hpat])]
  exact replaceGo_append pat rep h t hpat post pre _ hpre (Nat.lt_succ_self _)

theorem pyReplace_append_right_clean (pre pat post rep : List Char) (h : Char) (t : List Char)
    (hpat : pat = h :: t) (hpre : h ∉ pre) (hpost : h ∉ post) :
    pyReplace (pre ++ pat ++ post) pat rep = pre ++ rep ++ post := by
  rw [pyReplace_append pre pat post rep h t hpat hpre,
    pyReplace_of_not_mem post pat rep h t hpat hpost]

theorem replace1Go_append (pat rep : List Char) (h : Char) (t : List Char)
    (hpat : pat = h :: t) (post : List Char) :
    ∀ pre : List Char, h ∉ pre →
      replace1Go pat rep (pre ++ pat ++ post) = pre ++ rep ++ post := by
  intro pre
  induction pre with
  | nil =>
    intro _
    have hsh : ([] : List Char) ++ pat ++ post = h :: (t ++ post) := by simp [hpat]
    rw [hsh]
    simp only [replace1Go]
    rw [if_pos]
    · have : h :: (t ++ post) = pat ++ post := by simp [hpat]
      rw [this, List.drop_left]
      simp
    · rw [List.isPrefixOf_iff_prefix]
      have : h :: (t ++ post) = pat ++ post := by simp [hpat]
      rw [this]
      exact List.prefix_append pat post
  | cons a pre' ih =>
    intro hmem
    have hne : h ≠ a := fun he => hmem (he ▸ List.mem_cons_self a pre')
    have hsh : (a :: pre') ++ pat ++ post = a :: (pre' ++ pat ++ post) := by simp
    rw [hsh]
    simp only [replace1Go]
    rw [if_neg (not_isPrefixOf_cons pat h t a _ hpat hne)]
    rw [ih (fun hc => hmem (List.mem_cons_of_mem a hc))]
    simp

theorem pyReplace1_append (pre pat post rep : List Char) (h : Char) (t : List Char)
    (hpat : pat = h :: t) (hpre : h ∉ pre) :
    pyReplace1 (pre ++ pat ++ post) pat rep = pre ++ rep ++ post := by
  unfold pyReplace1
  rw [if_neg (by simp [hpat])]
  exact replace1Go_append pat rep h t hpat post pre hpre

theorem replace1Go_of_not_infix (pat rep : List Char) :
    ∀ s : List Char, ¬ pat <:+: s → replace1Go pat rep s = s := by
  intro s
  induction s with
  | nil => intro _; simp [replace1Go]
  | cons c cs ih =>
    intro hs
    simp only [replace1Go]
    rw [if_neg, ih]
    · intro hinf
      exact hs (hinf.trans ((List.suffix_cons c cs).isInfix))
    · intro hpre
      exact hs (List.isPrefixOf_iff_prefix.mp hpre).isInfix

theorem pyReplace1_of_not_infix (s pat rep : List Char) (hs : ¬ pat <:+: s) :
    pyReplace1 s pat rep = s := by
  unfold pyReplace1
  rw [if_neg, replace1Go_of_not_infix pat rep s hs]
  intro he
  exact hs (he ▸ List.nil_infix)

theorem pyFindI_append (pat rest : List Char) (h : Char) (t : List Char)
    (hpat : pat = h :: t) :
    ∀ pre : List Char, h ∉ pre →
      pyFindI (pre ++ pat ++ rest) pat = pre.length := by
  intro pre
  induction pre with
  | nil =>
    intro _
    unfold pyFindI
    rw [if_pos]
    · simp
    · rw [List.isPrefixOf_iff_prefix]
      have : ([] : List Char) ++ pat ++ rest = pat ++ rest := by simp
      rw [this]
      exact List.prefix_append pat rest
  | cons a pre' ih =>
    intro hmem
    have hne : h ≠ a := fun he => hmem (he ▸ List.mem_cons_self a pre')
    have hsh : (a :: pre') ++ pat ++ rest = a :: (pre' ++ pat ++ rest) := by simp
    rw [hsh]
    unfold pyFindI
    rw [if_neg (not_isPrefixOf_cons pat h t a _ hpat hne)]
    simp only
    rw [ih (fun hc => hmem (List.mem_cons_of_mem a hc))]
    have hor : ¬ ((pre'.length : Int) < 0) := by omega
    rw [if_neg hor]
    simp

/-! ## Lemmas about line splitting and joining -/

theorem splitNl_ne_nil (s : List Char) : splitNl s ≠ [] := by
  cases s with
  | nil => simp [splitNl]
  | cons c cs =>
    simp only [splitNl]
    cases splitNl cs with
    | nil => split <;> split <;> simp
    | cons r rs => split <;> split <;> simp

theorem splitNl_cons_nl (cs : List Char) : splitNl ('\n' :: cs) = [] :: splitNl cs := by
  simp only [splitNl]
  cases h : splitNl cs with
  | nil => exact absurd h (splitNl_ne_nil cs)
  | cons r rs => simp

theorem splitNl_cons_other (c : Char) (hc : c ≠ '\n') (cs : List Char) :
    splitNl (c :: cs) = (c :: (splitNl cs).headD []) :: (splitNl cs).tail := by
  simp only [splitNl]
  cases h : splitNl cs with
  | nil => exact absurd h (splitNl_ne_nil cs)
  | cons r rs => simp [hc]

theorem splitNl_append_nl (x y : List Char) :
    splitNl (x ++ '\n' :: y) = splitNl x ++ splitNl y := by
  induction x with
  | nil =>
    rw [List.nil_append, splitNl_cons_nl]
    simp [splitNl]
  | cons c cs ih =>
    by_cases hc : c = '\n'
    · subst hc
      have : ('\n' :: cs) ++ '\n' :: y = '\n' :: (cs ++ '\n' :: y) := by simp
      rw [this, splitNl_cons_nl, splitNl_cons_nl, ih]
      simp
    · have : (c :: cs) ++ '\n' :: y = c :: (cs ++ '\n' :: y) := by simp
      rw [this, splitNl_cons_other c hc, splitNl_cons_other c hc, ih]
      have hne := splitNl_ne_nil cs
      cases h : splitNl cs with
      | nil => exact absurd h hne
      | cons r rs => simp

theorem splitNl_of_not_mem (x : List Char) (hx : '\n' ∉ x) : splitNl x = [x] := by
  induction x with
  | nil => simp [splitNl]
  | cons c cs ih =>
    have hc : c ≠ '\n' := fun he => hx (he ▸ List.mem_cons_self c cs)
    rw [splitNl_cons_other c hc, ih (fun hm => hx (List.mem_cons_of_mem c hm))]
    simp

theorem joinNl_cons (l : List Char) (ls : List (List Char)) (hls : ls ≠ []) :
    joinNl (l :: ls) = l ++ '\n' :: joinNl ls := by
  cases ls with
  | nil => exact absurd rfl hls
  | cons a as => simp [joinNl]

theorem joinNl_append (X Y : List (List Char)) (hX : X ≠ []) (hY : Y ≠ []) :
    joinNl (X ++ Y) = joinNl X ++ '\n' :: joinNl Y := by
  induction X with
  | nil => exact absurd rfl hX
  | cons x xs ih =>
    cases xs with
    | nil =>
      rw [List.singleton_append, joinNl_cons x Y hY]
      simp [joinNl]
    | cons a as =>
      have hxs : (a :: as : List (List Char)) ≠ [] := by simp
      have h1 : (x :: a :: as) ++ Y = x :: ((a :: as) ++ Y) := by simp
      rw [h1, joinNl_cons x _ (by simp), ih hxs, joinNl_cons x _ hxs]
      simp

theorem joinNl_splitNl (s : List Char) : joinNl (splitNl s) = s := by
  induction s with
  | nil => simp [splitNl, joinNl]
  | cons c cs ih =>
    by_cases hc : c = '\n'
    · subst hc
      rw [splitNl_cons_nl, joinNl_cons _ _ (splitNl_ne_nil cs), ih]
      simp
    · rw [splitNl_cons_other c hc]
      have hne := splitNl_ne_nil cs
      cases h : splitNl cs with
      | nil => exact absurd h hne
      | cons r rs =>
        rw [h] at ih
        cases rs with
        | nil => simp [joinNl] at ih ⊢; exact ih
        | cons b bs =>
          rw [joinNl_cons _ _ (by simp)] at ih
          simp only [List.headD, List.tail]
          rw [joinNl_cons _ _ (by simp)]
          simp [ih]

theorem splitNl_joinNl (L : List (List Char)) (hL : L ≠ [])
    (hnl : ∀ l ∈ L, '\n' ∉ l) : splitNl (joinNl L) = L := by
  induction L with
  | nil => exact absurd rfl hL
  | cons l ls ih =>
    cases ls with
    | nil =>
      simp only [joinNl]
      exact splitNl_of_not_mem l (hnl l (by simp))
    | cons a as =>
      rw [joinNl_cons l _ (by simp), splitNl_append_nl, splitNl_of_not_mem l (hnl l (by simp)),
        ih (by simp) (fun x hx => hnl x (List.mem_cons_of_mem l hx))]
      simp

theorem mem_of_mem_splitNl (s : List Char) :
    ∀ l ∈ splitNl s, ∀ c ∈ l, c ∈ s := by
  induction s with
  | nil =>
    intro l hl c hc
    simp [splitNl] at hl
    subst hl
    exact absurd hc (List.not_mem_nil c)
  | cons a cs ih =>
    intro l hl c hc
    by_cases ha : a = '\n'
    · subst ha
      rw [splitNl_cons_nl] at hl
      rcases List.mem_cons.mp hl with h | h
      · subst h; exact absurd hc (List.not_mem_nil c)
      · exact List.mem_cons_of_mem _ (ih l h c hc)
    · rw [splitNl_cons_other a ha] at hl
      rcases List.mem_cons.mp hl with h | h
      · subst h
        rcases List.mem_cons.mp hc with h' | h'
        · exact h' ▸ List.mem_cons_self a cs
        · cases hsp : splitNl cs with
          | nil => exact absurd hsp (splitNl_ne_nil cs)
          | cons r rs =>
            have hr : r ∈ splitNl cs := by rw [hsp]; exact List.mem_cons_self r rs
            have : c ∈ r := by rw [hsp] at h'; exact h'
            exact List.mem_cons_of_mem _ (ih r hr c this)
      · cases hsp : splitNl cs with
        | nil => exact absurd hsp (splitNl_ne_nil cs)
        | cons r rs =>
          have hlm : l ∈ splitNl cs := by
            rw [hsp] at h ⊢; exact List.mem_cons_of_mem r h
          exact List.mem_cons_of_mem _ (ih l hlm c hc)

/-! ## Lemmas about dot splitting (for `post_process_signature`) -/

theorem splitDots_ne_nil (s : List Char) : splitDots s ≠ [] := by
  cases s with
  | nil => simp [splitDots]
  | cons c cs =>
    simp only [splitDots]
    cases splitDots cs with
    | nil => split <;> split <;> simp
    | cons r rs => split <;> split <;> simp

theorem splitDots_of_not_mem (y : List Char) (hy : '.' ∉ y) : splitDots y = [y] := by
  induction y with
  | nil => simp [splitDots]
  | cons c cs ih =>
    have hc : c ≠ '.' := fun he => hy (he ▸ List.mem_cons_self c cs)
    simp only [splitDots]
    rw [ih (fun hm => hy (List.mem_cons_of_mem c hm))]
    simp [hc]

/-- The lookahead value of the separator test at the head of `c :: cs`. -/
def dotSep (c : Char) (cs : List Char) : Bool :=
  c = '.' && (match cs with | d :: _ => ! d.isDigit | [] => true)

theorem splitDots_cons_sep (c : Char) (cs : List Char) (h : dotSep c cs = true) :
    splitDots (c :: cs) = [] :: splitDots cs := by
  simp only [splitDots]
  cases hs : splitDots cs with
  | nil => exact absurd hs (splitDots_ne_nil cs)
  | cons r rs =>
    unfold dotSep at h
    simp [h]

theorem splitDots_cons_nosep (c : Char) (cs : List Char) (h : dotSep c cs = false) :
    splitDots (c :: cs) = (c :: (splitDots cs).headD []) :: (splitDots cs).tail := by
  simp only [splitDots]
  cases hs : splitDots cs with
  | nil => exact absurd hs (splitDots_ne_nil cs)
  | cons r rs =>
    unfold dotSep at h
    simp [h]

theorem dotSep_append (c : Char) (cs y : List Char) :
    dotSep c (cs ++ '.' :: y) = dotSep c cs := by
  unfold dotSep
  cases cs with
  | nil => simp
  | cons a as => simp

theorem splitDots_append_sep (y : List Char) (hy : (y.headD ' ').isDigit = false) :
    ∀ x : List Char, splitDots (x ++ '.' :: y) = splitDots x ++ splitDots y := by
  intro x
  induction x with
  | nil =>
    rw [List.nil_append, splitDots_cons_sep '.' y]
    · simp [splitDots]
    · unfold dotSep
      cases y with
      | nil => simp
      | cons d ds => simp at hy ⊢; exact hy
  | cons c cs ih =>
    have h1 : (c :: cs) ++ '.' :: y = c :: (cs ++ '.' :: y) := by simp
    rw [h1]
    cases hb : dotSep c cs with
    | true =>
      rw [splitDots_cons_sep c _ (by rw [dotSep_append, hb]), splitDots_cons_sep c cs hb, ih]
      simp
    | false =>
      rw [splitDots_cons_nosep c _ (by rw [dotSep_append, hb]), splitDots_cons_nosep c cs hb, ih]
      cases hs : splitDots cs with
      | nil => exact absurd hs (splitDots_ne_nil cs)
      | cons r rs => simp

theorem joinDots_cons (l : List Char) (ls : List (List Char)) (hls : ls ≠ []) :
    joinDots (l :: ls) = l ++ '.' :: joinDots ls := by
  cases ls with
  | nil => exact absurd rfl hls
  | cons a as => simp [joinDots]

theorem joinDots_append (X Y : List (List Char)) (hX : X ≠ []) (hY : Y ≠ []) :
    joinDots (X ++ Y) = joinDots X ++ '.' :: joinDots Y := by
  induction X with
  | nil => exact absurd rfl hX
  | cons x xs ih =>
    cases xs with
    | nil =>
      rw [List.singleton_append, joinDots_cons x Y hY]
      simp [joinDots]
    | cons a as =>
      have hxs : (a :: as : List (List Char)) ≠ [] := by simp
      have h1 : (x :: a :: as) ++ Y = x :: ((a :: as) ++ Y) := by simp
      rw [h1, joinDots_cons x _ (by simp), ih hxs, joinDots_cons x _ hxs]
      simp

/-- The three possible outcomes of `post_process_signature`. -/
theorem post_process_cases (s : List Char) :
    post_process_signature s = s ∨
    (4 ≤ (splitDots s).length ∧
      post_process_signature s = chars "spektral.layers." ++ joinDots ((splitDots s).drop 3)) ∨
    (4 ≤ (splitDots s).length ∧
      post_process_signature s = chars "spektral.utils." ++ joinDots ((splitDots s).drop 3)) := by
  unfold post_process_signature
  simp only []
  split_ifs with h1 h2 h3 <;>
    first
    | (left; rfl)
    | (right; left; exact ⟨h1, rfl⟩)
    | (right; right; exact ⟨h1, rfl⟩)

/-- Post-processing preserves a trailing dot-free component: the result of
`post_process_signature (module ++ "." ++ tail)` always ends in `tail`
itself, whichever branch is taken. -/
theorem post_process_suffix (module tail : List Char) (hdot : '.' ∉ tail)
    (hhd : (tail.headD ' ').isDigit = false) :
    ∃ pfx : List Char, post_process_signature (module ++ '.' :: tail) = pfx ++ tail := by
  have hparts : splitDots (module ++ '.' :: tail) = splitDots module ++ [tail] := by
    rw [splitDots_append_sep tail hhd module, splitDots_of_not_mem tail hdot]
  have hjoin : 4 ≤ (splitDots (module ++ '.' :: tail)).length →
      ∃ q : List Char, joinDots ((splitDots (module ++ '.' :: tail)).drop 3) = q ++ tail := by
    intro h4
    rw [hparts] at h4 ⊢
    have hmlen : 3 ≤ (splitDots module).length := by
      simp at h4; omega
    rw [List.drop_append_of_le_length hmlen]
    cases hd3 : (splitDots module).drop 3 with
    | nil => exact ⟨[], by simp [joinDots]⟩
    | cons r rs =>
      refine ⟨joinDots (r :: rs) ++ ['.'], ?_⟩
      rw [← hd3, joinDots_append _ [tail] (by rw [hd3]; simp) (by simp)]
      simp [joinDots]
  rcases post_process_cases (module ++ '.' :: tail) with h | ⟨h4, h⟩ | ⟨h4, h⟩
  · exact ⟨module ++ ['.'], by rw [h]; simp⟩
  · obtain ⟨q, hq⟩ := hjoin h4
    exact ⟨chars "spektral.layers." ++ q, by rw [h, hq]; simp⟩
  · obtain ⟨q, hq⟩ := hjoin h4
    exact ⟨chars "spektral.utils." ++ q, by rw [h, hq]; simp⟩

/-! ## Claims C5-C8: the signature extractor -/

/-- Parameter names separated by `", "`, with no trailing separator. -/
def joinCommaSep : List (List Char) → List Char
  | [] => []
  | [t] => t
  | t :: ts => t ++ ',' :: ' ' :: joinCommaSep ts

theorem dropLast_two_append (x : List Char) (a b : Char) :
    (x ++ [a, b]).dropLast.dropLast = x := by
  have h1 : x ++ [a, b] = (x ++ [a]) ++ [b] := by simp
  rw [h1, List.dropLast_concat, List.dropLast_concat]

theorem foldr_comma_eq (L : List (List Char)) (hL : L ≠ []) :
    L.foldr (fun t acc => t ++ ',' :: ' ' :: acc) [] = joinCommaSep L ++ [',', ' '] := by
  induction L with
  | nil => exact absurd rfl hL
  | cons t ts ih =>
    cases ts with
    | nil => simp [joinCommaSep]
    | cons t' ts' =>
      show t ++ ',' :: ' ' :: ((t' :: ts').foldr (fun t acc => t ++ ',' :: ' ' :: acc) []) = _
      rw [ih (by simp)]
      simp [joinCommaSep]

/-- When at least one token is rendered, the slice removes exactly the
trailing `", "`; when no token is rendered but there are also no defaults,
nothing is sliced.  In both regimes the signature is `module.name(` + the
`", "`-joined tokens + `)`.  (The remaining regime — no token rendered and
a nonempty `defaults` — is the one where the source's truthy empty `zip`
makes the slice cut into the name.) -/
theorem get_function_signature_eq_join (method : Bool) (spec : ArgSpec)
    (module fnName : List Char)
    (h : sigTokens method spec ≠ [] ∨ sigAllDefaults spec = []) :
    get_function_signature method spec module fnName =
      post_process_signature
        (module ++ '.' :: fnName ++ '(' :: joinCommaSep (sigTokens method spec) ++ [')']) := by
  unfold get_function_signature sigSt clean_module_name
  by_cases htoks : sigTokens method spec = []
  · have hd : sigAllDefaults spec = [] := by
      rcases h with h | h
      · exact absurd htoks h
      · exact h
    have hp : sigPos method spec = [] := by
      have h2 : sigPos method spec ++
          (sigKwargs method spec).map (fun av => av.1 ++ '=' :: renderVal av.2) = [] := htoks
      exact (List.append_eq_nil.mp h2).1
    rw [if_neg (by simp [hd, hp]), htoks]
    rfl
  · have hguard : sigAllDefaults spec ≠ [] ∨ sigPos method spec ≠ [] := by
      by_cases hd : sigAllDefaults spec = []
      · right
        intro hp
        apply htoks
        have hk : sigKwargs method spec = [] := by
          unfold sigKwargs
          rw [if_neg (by simp [hd])]
        show sigPos method spec ++
          (sigKwargs method spec).map (fun av => av.1 ++ '=' :: renderVal av.2) = []
        rw [hp, hk]
        rfl
      · exact Or.inl hd
    rw [if_pos hguard, foldr_comma_eq _ htoks]
    rw [show module ++ '.' :: fnName ++
        '(' :: (joinCommaSep (sigTokens method spec) ++ [',', ' ']) =
        (module ++ '.' :: fnName ++ '(' :: joinCommaSep (sigTokens method spec)) ++ [',', ' ']
      from by simp]
    rw [dropLast_two_append]

/-- The no-token, nonempty-defaults corner at a concrete spec: a method
whose only declared parameter is the receiver, with a default.  The truthy
empty `zip` makes `st[:-2]` chop the `(` and the last character of the
name: the program returns the mangled `m.)` (and so still no receiver
text). -/
theorem get_function_signature_empty_slice :
    get_function_signature true ⟨[chars "self"], [PyVal.other (chars "1")], []⟩
      (chars "m") (chars "f") = chars "m.)" := by decide

theorem mem_joinCommaSep (L : List (List Char)) (c : Char) (hc : c ∈ joinCommaSep L) :
    (∃ l ∈ L, c ∈ l) ∨ c = ',' ∨ c = ' ' := by
  induction L with
  | nil => simp [joinCommaSep] at hc
  | cons t ts ih =>
    cases ts with
    | nil =>
      simp only [joinCommaSep] at hc
      exact Or.inl ⟨t, by simp, hc⟩
    | cons t' ts' =>
      simp only [joinCommaSep, List.mem_append, List.mem_cons] at hc
      rcases hc with h | h | h | h
      · exact Or.inl ⟨t, by simp, h⟩
      · exact Or.inr (Or.inl h)
      · exact Or.inr (Or.inr h)
      · rcases ih h with ⟨l, hl, hcl⟩ | h' | h'
        · exact Or.inl ⟨l, List.mem_cons_of_mem t hl, hcl⟩
        · exact Or.inr (Or.inl h')
        · exact Or.inr (Or.inr h')

/-- When two `=`-free names are glued to an `=` sign, prefix order forces
them to coincide. -/
theorem eq_of_append_eq_prefix :
    ∀ x a v : List Char, '=' ∉ x → '=' ∉ a → (x ++ ['=']) <+: (a ++ '=' :: v) → x = a := by
  intro x
  induction x with
  | nil =>
    intro a v _ ha hpre
    cases a with
    | nil => rfl
    | cons b a' =>
      rw [List.nil_append] at hpre
      have heq : ('=' : Char) = b := (List.cons_prefix_cons.mp hpre).1
      exact (ha (show ('=' : Char) ∈ b :: a' by rw [heq]; exact List.mem_cons_self b a')).elim
  | cons c x' ih =>
    intro a v hx ha hpre
    cases a with
    | nil =>
      rw [List.nil_append] at hpre
      have hxc : (c :: x') ++ ['='] = c :: (x' ++ ['=']) := by simp
      rw [hxc] at hpre
      have heq : c = '=' := (List.cons_prefix_cons.mp hpre).1
      exact (hx (show ('=' : Char) ∈ c :: x' by rw [← heq]; exact List.mem_cons_self c x')).elim
    | cons b a' =>
      have hxc : (c :: x') ++ ['='] = c :: (x' ++ ['=']) := by simp
      have hac : (b :: a') ++ '=' :: v = b :: (a' ++ '=' :: v) := by simp
      rw [hxc, hac] at hpre
      obtain ⟨hcb, htl⟩ := List.cons_prefix_cons.mp hpre
      rw [hcb, ih a' v (fun hm => hx (List.mem_cons_of_mem c hm))
        (fun hm => ha (List.mem_cons_of_mem b hm)) htl]

/-- Claim C5: for a callable rendered with `method = True`, the first
declared parameter (the implicit receiver, conventionally `self`) never
appears in the rendered signature: no rendered token equals it, no token
renders it with a default value, and the returned string is built from
nothing but the module path, the callable name and the rendered tokens —
when at least one token is rendered the string is `module.name(` + the
`", "`-joined tokens + `)`, and when no token is rendered the part before
the closing parenthesis is a prefix of `module.name(` (the source's truthy
empty `zip` then slices two characters off it), holding no parameter text
at all.  The hypotheses say that the argument spec names the first
parameter `a0`, that Python parameter names are distinct and contain no
`=`, and that the callable is one that the source can process at all (a
nonempty `defaults` tuple together with keyword-only arguments makes the
source raise before producing a signature). -/
theorem c5_method_drops_receiver (spec : ArgSpec) (module fnName a0 : List Char)
    (rest : List (List Char)) (hargs : spec.args = a0 :: rest)
    (hnodup : a0 ∉ rest) (hkw : a0 ∉ spec.kwonly.map Prod.fst)
    (hident : ∀ x ∈ sigAllArgs spec, '=' ∉ x)
    (_hok : spec.defaults = [] ∨ spec.kwonly = []) :
    (∀ t ∈ sigTokens true spec, t ≠ a0 ∧ ¬ (a0 ++ ['=']) <+: t) ∧
      (sigTokens true spec ≠ [] →
        get_function_signature true spec module fnName =
          post_process_signature
            (module ++ '.' :: fnName ++ '(' :: joinCommaSep (sigTokens true spec) ++ [')'])) ∧
      (sigTokens true spec = [] →
        ∃ s : List Char, s <+: module ++ '.' :: fnName ++ ['('] ∧
          get_function_signature true spec module fnName =
            post_process_signature (s ++ [')'])) := by
  have ha0 : a0 ∈ sigAllArgs spec := by
    unfold sigAllArgs
    rw [hargs]
    simp
  have ha0eq : '=' ∉ a0 := hident a0 ha0
  have husedsub : ∀ x ∈ sigUsedArgs true spec, x ≠ a0 := by
    intro x hx
    unfold sigUsedArgs sigAllArgs at hx
    rw [hargs] at hx
    simp only [if_pos rfl, List.cons_append, List.drop_succ_cons, List.drop_zero] at hx
    rcases List.mem_append.mp hx with h | h
    · exact fun he => hnodup (he ▸ h)
    · exact fun he => hkw (he ▸ h)
  constructor
  · intro t ht
    unfold sigTokens at ht
    rcases List.mem_append.mp ht with h | h
    · have htu : t ∈ sigUsedArgs true spec := by
        unfold sigPos at h
        split at h
        · exact List.mem_of_mem_take h
        · exact h
      refine ⟨husedsub t htu, ?_⟩
      intro hpre
      have : '=' ∈ t := hpre.mem (by simp)
      exact hident t (by
        unfold sigUsedArgs at htu
        rw [if_pos rfl] at htu
        exact List.mem_of_mem_drop htu) this
    · obtain ⟨⟨a, v⟩, hav, hteq⟩ := List.mem_map.mp h
      have hau : a ∈ sigUsedArgs true spec := by
        unfold sigKwargs at hav
        split at hav
        · exact List.mem_of_mem_drop (List.of_mem_zip hav).1
        · exact absurd hav (List.not_mem_nil _)
      have haeq : '=' ∉ a := hident a (by
        unfold sigUsedArgs at hau
        rw [if_pos rfl] at hau
        exact List.mem_of_mem_drop hau)
      subst hteq
      constructor
      · intro he
        have : '=' ∈ a0 := by
          rw [← he]
          simp
        exact ha0eq this
      · intro hpre
        exact husedsub a hau ( eq_of_append_eq_prefix a0 a (renderVal v) ha0eq haeq hpre).symm
  constructor
  · intro htoks
    exact get_function_signature_eq_join true spec module fnName (Or.inl htoks)
  · intro htoks
    unfold get_function_signature sigSt clean_module_name
    by_cases hg : sigAllDefaults spec ≠ [] ∨ sigPos true spec ≠ []
    · rw [if_pos hg, htoks]
      simp only [List.foldr_nil]
      exact ⟨(module ++ '.' :: fnName ++ ['(']).dropLast.dropLast,
        (List.dropLast_prefix _).trans (List.dropLast_prefix _), rfl⟩
    · rw [if_neg hg, htoks]
      simp only [List.foldr_nil]
      exact ⟨module ++ '.' :: fnName ++ ['('], List.prefix_rfl, rfl⟩

/-- Witness for C5 at the concrete method spec `(self, x)`: the rendered
token list is `[x]`, and the receiver name `self` satisfies the exclusion
the theorem states. -/
theorem c5_witness :
    (chars "x" ≠ chars "self" ∧ ¬ (chars "self" ++ ['=']) <+: chars "x") := by
  have h := c5_method_drops_receiver ⟨[chars "self", chars "x"], [], []⟩
    (chars "m") (chars "f") (chars "self") [chars "x"] rfl (by decide) (by decide)
    (by decide) (Or.inl rfl)
  exact h.1 (chars "x") (by decide)

/-- Claim C6: for a function with no default-valued parameters, rendered
with `method = False`, the signature is the post-processed
`module.name(a1, a2, ..., an)`: the declared parameter names in order,
separated by `", "`, no trailing comma, and an empty pair of parentheses for
a parameter-free function.  The second conjunct pins the parenthesised
segment byte for byte: post-processing may rewrite only the dotted prefix in
front of the function name. -/
theorem c6_no_defaults_signature (spec : ArgSpec) (module fnName : List Char)
    (hdef : spec.defaults = []) (hkw : spec.kwonly = [])
    (hnm : '.' ∉ fnName) (hargs : ∀ a ∈ spec.args, '.' ∉ a)
    (hhd : ((fnName.headD '(').isDigit = false)) :
    get_function_signature false spec module fnName =
      post_process_signature
        (module ++ '.' :: fnName ++ '(' :: joinCommaSep spec.args ++ [')']) ∧
    (∃ pfx : List Char, get_function_signature false spec module fnName =
      pfx ++ fnName ++ '(' :: joinCommaSep spec.args ++ [')']) ∧
    (spec.args = [] → get_function_signature false spec module fnName =
      post_process_signature (module ++ '.' :: fnName ++ chars "()")) := by
  have htoks : sigTokens false spec = spec.args := by
    unfold sigTokens sigPos sigKwargs sigAllDefaults sigUsedArgs sigAllArgs
    rw [hdef, hkw]
    simp
  have hdall : sigAllDefaults spec = [] := by
    unfold sigAllDefaults
    rw [hdef, hkw]
    rfl
  have hmain : get_function_signature false spec module fnName =
      post_process_signature
        (module ++ '.' :: fnName ++ '(' :: joinCommaSep spec.args ++ [')']) := by
    rw [get_function_signature_eq_join false spec module fnName (Or.inr hdall), htoks]
  refine ⟨hmain, ?_, ?_⟩
  · rw [hmain]
    have hdtail : '.' ∉ fnName ++ '(' :: joinCommaSep spec.args ++ [')'] := by
      intro hm
      simp only [List.mem_append, List.mem_cons] at hm
      rcases hm with (h | h) | h
      · exact hnm h
      · rcases h with h | h
        · exact absurd h (by decide)
        · rcases mem_joinCommaSep spec.args '.' h with ⟨l, hl, hcl⟩ | h' | h'
          · exact hargs l hl hcl
          · exact absurd h' (by decide)
          · exact absurd h' (by decide)
      · simp at h
    have hht : ((fnName ++ '(' :: joinCommaSep spec.args ++ [')']).headD ' ').isDigit = false := by
      cases fnName with
      | nil => simp
      | cons c cn => simpa using hhd
    obtain ⟨pfx, hpfx⟩ := post_process_suffix module _ hdtail hht
    refine ⟨pfx, ?_⟩
    simp only [List.append_assoc, List.cons_append] at hpfx ⊢
    exact hpfx
  · intro hnil
    rw [hmain, hnil]
    simp [joinCommaSep, chars]

/-- Witness for C6 at a concrete two-parameter function with no defaults. -/
theorem c6_witness :
    get_function_signature false ⟨[chars "a", chars "b"], [], []⟩
      (chars "spektral.data.utils") (chars "to_disjoint") =
      chars "spektral.data.utils.to_disjoint(a, b)" := by
  have h := (c6_no_defaults_signature ⟨[chars "a", chars "b"], [], []⟩
    (chars "spektral.data.utils") (chars "to_disjoint") rfl rfl
    (by decide) (by decide) (by decide)).1
  rw [h]
  decide

/-- Claim C7: a class whose constructor cannot be introspected (modelled by
`init = none`, the `TypeError`/`AttributeError` branch) does not make
`get_class_signature` fail: the result is the post-processed synthesized
empty-argument signature `module.ClassName()`, and it always has exactly
that shape, a dotted prefix followed by the class name and an empty pair of
parentheses. -/
theorem c7_class_fallback (clsModule clsName : List Char)
    (hdot : '.' ∉ clsName) (hhd : ((clsName.headD '(').isDigit = false)) :
    get_class_signature none clsModule clsName =
      post_process_signature (clsModule ++ '.' :: clsName ++ chars "()") ∧
    (∃ pfx : List Char, get_class_signature none clsModule clsName =
      pfx ++ clsName ++ chars "()") := by
  refine ⟨rfl, ?_⟩
  have hdtail : '.' ∉ clsName ++ chars "()" := by
    intro hm
    rcases List.mem_append.mp hm with h | h
    · exact hdot h
    · simp [chars] at h
  have hht : ((clsName ++ chars "()").headD ' ').isDigit = false := by
    cases clsName with
    | nil => simp [chars]
    | cons c cn => simpa using hhd
  obtain ⟨pfx, hpfx⟩ := post_process_suffix clsModule _ hdtail hht
  refine ⟨pfx, ?_⟩
  show post_process_signature (clean_module_name clsModule ++ '.' :: clsName ++ chars "()") =
    pfx ++ clsName ++ chars "()"
  unfold clean_module_name
  simp only [List.append_assoc, List.cons_append] at hpfx ⊢
  exact hpfx

/-- Witness for C7 at a concrete deep layers module: the fallback signature
exists and ends in `ClassName()`. -/
theorem c7_witness :
    get_class_signature none (chars "spektral.layers.pooling.global_pool")
      (chars "GlobalAvgPool") = chars "spektral.layers.global_pool.GlobalAvgPool()" := by
  have h := (c7_class_fallback (chars "spektral.layers.pooling.global_pool")
    (chars "GlobalAvgPool") (by decide) (by decide)).1
  rw [h]
  decide

/-- Claim C8: `post_process_signature` rewrites exactly the signatures that
split (at dots not followed by a digit) into at least four parts with second
part `layers` or `utils`, replacing everything before the fourth part with
`spektral.layers.` respectively `spektral.utils.`; every other signature
string is returned unchanged. -/
theorem c8_post_process (s : List Char) :
    (4 ≤ (splitDots s).length → (splitDots s).getD 1 [] = chars "layers" →
      post_process_signature s = chars "spektral.layers." ++ joinDots ((splitDots s).drop 3)) ∧
    (4 ≤ (splitDots s).length → (splitDots s).getD 1 [] = chars "utils" →
      post_process_signature s = chars "spektral.utils." ++ joinDots ((splitDots s).drop 3)) ∧
    ((splitDots s).length < 4 ∨
        ((splitDots s).getD 1 [] ≠ chars "layers" ∧ (splitDots s).getD 1 [] ≠ chars "utils") →
      post_process_signature s = s) := by
  refine ⟨?_, ?_, ?_⟩
  · intro h4 hl
    have hnu : (splitDots s).getD 1 [] ≠ chars "utils" := by
      rw [hl]; decide
    unfold post_process_signature
    simp only []
    rw [if_pos h4, if_neg hnu, if_pos hl]
  · intro h4 hu
    unfold post_process_signature
    simp only []
    rw [if_pos h4, if_pos hu]
  · intro h
    rcases h with h | ⟨hl, hu⟩
    · unfold post_process_signature
      simp only []
      rw [if_neg (by omega)]
    · unfold post_process_signature
      simp only []
      by_cases h4 : 4 ≤ (splitDots s).length
      · rw [if_pos h4, if_neg hu, if_neg hl]
      · rw [if_neg h4]

/-- Witness for C8: a deep `layers` signature is collapsed, keeping the
parts from the fourth on. -/
theorem c8_witness :
    post_process_signature (chars "spektral.layers.convolutional.gcn_conv.GCNConv(channels)") =
      chars "spektral.layers.gcn_conv.GCNConv(channels)" := by
  have h := (c8_post_process
    (chars "spektral.layers.convolutional.gcn_conv.GCNConv(channels)")).1
    (by decide) (by decide)
  rw [h]
  decide

/-! ## The file materializer: template copying, page writing, the main run

The file system is an association list from paths to file contents.  The
script's effects are modelled module by module: the `os.walk("templates")`
copy loop, the per-page template substitution with its assertion, and the
whole `__main__` run (directory reset, template copy, index substitution,
page loop).  The static-asset copies at the bottom of the page loop read
fixed non-template inputs and write fixed output paths; they are omitted
from the model because no claim mentions them and the determinism argument
for the run is unchanged by adding more copies of non-`sources` inputs. -/

/-- Python `fname[-3:] == ".md"`. -/
def isMd (f : List Char) : Bool :=
  f.drop (f.length - 3) = chars ".md"

/-- The `{{autogenerated}}` placeholder token. -/
def autogenTag : List Char := chars "\x7b\x7bautogenerated\x7d\x7d"

/-- Embeds the module-level template copy loop: for every `(subdir, fnames)`
pair produced by `os.walk("templates")`, copy each file whose name ends in
`.md` to `os.path.join(subdir, fname).replace("templates", "sources")`.
The result lists the destination paths of the copies performed. -/
def template_copy : List (List Char × List (List Char)) → List (List Char)
  | [] => []
  | (subdir, fnames) :: rest =>
    (fnames.filter (fun f => isMd f)).map
      (fun f => pyReplace (subdir ++ '/' :: f) (chars "templates") (chars "sources"))
      ++ template_copy rest

/-- Embeds the page-saving step of the `__main__` loop: when the target file
already exists its content must contain the placeholder (otherwise the
`assert` raises with a message naming the path), and the placeholder's first
occurrence is replaced (`template.replace("{{autogenerated}}", mkdown, 1)`);
when the file does not exist the generated markdown is written as is. -/
def writePage (path : List Char) (existing : Option (List Char)) (mkdown : List Char) :
    Except (List Char) (List Char) :=
  match existing with
  | some template =>
    if autogenTag <:+: template then
      Except.ok (pyReplace1 template autogenTag mkdown)
    else
      Except.error (chars "Template found for " ++ path ++
        chars " but missing \x7b\x7bautogenerated\x7d\x7d tag.")
  | none => Except.ok mkdown

/-- Embeds the `for page_data in PAGES` loop: each page is written to
`sources/<page>`, reading the current state of that path first (two entries
of `PAGES` may target the same page, the second seeing the first's write).
An assertion failure aborts the whole run. -/
def runPages : List (List Char × List Char) → List (List Char × List Char) →
    Except (List Char) (List (List Char × List Char))
  | [], fs => Except.ok fs
  | (page, mkdown) :: rest, fs =>
    match writePage (chars "sources/" ++ page)
      (lookupAssoc fs (chars "sources/" ++ page)) mkdown with
    | Except.error e => Except.error e
    | Except.ok content => runPages rest (updateAssoc fs (chars "sources/" ++ page) content)

/-- An entry of the file system that survives `shutil.rmtree("sources")`. -/
def keepNS (e : List Char × List Char) : Bool :=
  ! (chars "sources/").isPrefixOf e.1

/-- The `.md` files under `templates/`, copied to their
`replace("templates", "sources")` destinations. -/
def mdCopies (fs : List (List Char × List Char)) : List (List Char × List Char) :=
  (fs.filter (fun e => (chars "templates/").isPrefixOf e.1 && isMd e.1)).map
    (fun e => (pyReplace e.1 (chars "templates") (chars "sources"), e.2))

/-- The run after the destructive reset, on a state with no `sources/`
entries: populate `sources` from the Markdown templates, write
`sources/index.md` from `templates/index.md` with the README substituted
for the placeholder, then run the page loop.  `pages` carries the pairs
`(page name, generated markdown)` that the signature extractor and
docstring reformatter produce from the manifest and the library. -/
def runFrom (pages : List (List Char × List Char)) (readme : List Char)
    (fsClean : List (List Char × List Char)) :
    Except (List Char) (List (List Char × List Char)) :=
  match lookupAssoc fsClean (chars "templates/index.md") with
  | none => Except.error (chars "FileNotFoundError: templates/index.md")
  | some idx =>
    runPages pages
      (updateAssoc (fsClean ++ mdCopies fsClean) (chars "sources/index.md")
        (pyReplace idx autogenTag readme))

/-- Embeds the whole generation run: `shutil.rmtree("sources")` removes
every entry under `sources/`, then the rest of the script runs on what is
left. -/
def runScript (pages : List (List Char × List Char)) (readme : List Char)
    (fs : List (List Char × List Char)) :
    Except (List Char) (List (List Char × List Char)) :=
  runFrom pages readme (fs.filter keepNS)

/-! ## Claims C2, C3, C9 -/

/-- Counterexample to claim C2 as stated: a non-Markdown file under the
template directory is not copied at all — the copy loop filters on the
`.md` suffix (`fname[-3:] == ".md"`), so for a walk consisting of the single
file `templates/a.txt` nothing is copied, and in particular no
`sources/a.txt` is created. -/
theorem c2_counterexample :
    template_copy [(chars "templates", [chars "a.txt"])] = [] ∧
      chars "sources/a.txt" ∉ template_copy [(chars "templates", [chars "a.txt"])] := by
  constructor
  · decide
  · decide

/-- Claim C2 as amended: the copy loop copies exactly the files whose name
ends in `.md`, each to the path obtained by substituting `sources` for
`templates` in its joined source path. -/
theorem c2_template_copy_amended (walk : List (List Char × List (List Char))) (p : List Char) :
    p ∈ template_copy walk ↔
      ∃ subdir fnames f, (subdir, fnames) ∈ walk ∧ f ∈ fnames ∧ isMd f = true ∧
        p = pyReplace (subdir ++ '/' :: f) (chars "templates") (chars "sources") := by
  induction walk with
  | nil => simp [template_copy]
  | cons sf rest ih =>
    obtain ⟨subdir, fnames⟩ := sf
    simp only [template_copy, List.mem_append, List.mem_map, List.mem_filter, ih,
      List.mem_cons, Prod.mk.injEq]
    constructor
    · rintro (⟨f, ⟨hf, hmd⟩, hp⟩ | ⟨s, fn, f, hin, hf, hmd, hp⟩)
      · exact ⟨subdir, fnames, f, Or.inl ⟨rfl, rfl⟩, hf, hmd, hp.symm⟩
      · exact ⟨s, fn, f, Or.inr hin, hf, hmd, hp⟩
    · rintro ⟨s, fn, f, hin | hin, hf, hmd, hp⟩
      · obtain ⟨hs, hfn⟩ := hin
        subst hs; subst hfn
        exact Or.inl ⟨f, ⟨hf, hmd⟩, hp.symm⟩
      · exact Or.inr ⟨s, fn, f, hin, hf, hmd, hp⟩

theorem writePage_some (path template mkdown : List Char) :
    writePage path (some template) mkdown =
      if autogenTag <:+: template then
        Except.ok (pyReplace1 template autogenTag mkdown)
      else
        Except.error (chars "Template found for " ++ path ++
          chars " but missing \x7b\x7bautogenerated\x7d\x7d tag.") := rfl

theorem pyReplace_prefix_match (pat post rep : List Char) (h : Char) (t : List Char)
    (hpat : pat = h :: t) :
    pyReplace (pat ++ post) pat rep = rep ++ pyReplace post pat rep := by
  have hx := pyReplace_append [] pat post rep h t hpat (by simp)
  simpa using hx

/-- Claim C3: in the page loop, an existing target whose content lacks the
placeholder makes the run abort with an assertion message that names the
offending path, whatever pages remain; and when the placeholder is present,
its first occurrence — and only that occurrence — is replaced by the
generated content, after which the loop continues. -/
theorem c3_placeholder (page mkdown template : List Char)
    (fs : List (List Char × List Char))
    (hlook : lookupAssoc fs (chars "sources/" ++ page) = some template) :
    (¬ autogenTag <:+: template →
      ∀ rest : List (List Char × List Char),
        runPages ((page, mkdown) :: rest) fs =
          Except.error (chars "Template found for " ++ (chars "sources/" ++ page) ++
            chars " but missing \x7b\x7bautogenerated\x7d\x7d tag.") ∧
        (chars "sources/" ++ page) <:+:
          (chars "Template found for " ++ (chars "sources/" ++ page) ++
            chars " but missing \x7b\x7bautogenerated\x7d\x7d tag.")) ∧
    (∀ pre post : List Char, template = pre ++ autogenTag ++ post → '\x7b' ∉ pre →
      ∀ rest : List (List Char × List Char),
        runPages ((page, mkdown) :: rest) fs =
          runPages rest
            (updateAssoc fs (chars "sources/" ++ page) (pre ++ mkdown ++ post))) := by
  constructor
  · intro hmiss rest
    constructor
    · show (match writePage (chars "sources/" ++ page)
        (lookupAssoc fs (chars "sources/" ++ page)) mkdown with
        | Except.error e => Except.error e
        | Except.ok content =>
          runPages rest (updateAssoc fs (chars "sources/" ++ page) content)) = _
      rw [hlook, writePage_some, if_neg hmiss]
    · exact ⟨chars "Template found for ", chars " but missing \x7b\x7bautogenerated\x7d\x7d tag.",
        rfl⟩
  · intro pre post htpl hpre rest
    have hrepl : pyReplace1 template autogenTag mkdown = pre ++ mkdown ++ post := by
      rw [htpl]
      exact pyReplace1_append pre autogenTag post mkdown '\x7b'
        (chars "\x7bautogenerated\x7d\x7d") rfl hpre
    have hhas : autogenTag <:+: template := by
      rw [htpl]
      exact ⟨pre, post, rfl⟩
    show (match writePage (chars "sources/" ++ page)
      (lookupAssoc fs (chars "sources/" ++ page)) mkdown with
      | Except.error e => Except.error e
      | Except.ok content =>
        runPages rest (updateAssoc fs (chars "sources/" ++ page) content)) = _
    rw [hlook, writePage_some, if_pos hhas, hrepl]

/-- Witness for C3 at a concrete page: a template holding one placeholder
has exactly that occurrence replaced with the generated block. -/
theorem c3_witness :
    runPages [(chars "data.md", chars "BODY")]
      [(chars "sources/data.md", chars "A\x7b\x7bautogenerated\x7d\x7dB")] =
      runPages []
        (updateAssoc [(chars "sources/data.md", chars "A\x7b\x7bautogenerated\x7d\x7dB")]
          (chars "sources/data.md") (chars "A" ++ chars "BODY" ++ chars "B")) := by
  exact (c3_placeholder (chars "data.md") (chars "BODY")
      (chars "A\x7b\x7bautogenerated\x7d\x7dB")
      [(chars "sources/data.md", chars "A\x7b\x7bautogenerated\x7d\x7dB")]
      (by decide)).2 (chars "A") (chars "B") (by decide) (by decide) []

theorem filter_keepNS_idem (fs : List (List Char × List Char)) :
    (fs.filter keepNS).filter keepNS = fs.filter keepNS := by
  induction fs with
  | nil => rfl
  | cons e rest ih =>
    by_cases h : keepNS e
    · simp [List.filter_cons, h, ih]
    · simp only [Bool.not_eq_true] at h
      simp [List.filter_cons, h, ih]

theorem updateAssoc_filter_keepNS (k v : List Char)
    (hk : (chars "sources/").isPrefixOf k) :
    ∀ fs : List (List Char × List Char),
      (updateAssoc fs k v).filter keepNS = fs.filter keepNS := by
  have hkeep : keepNS (k, v) = false := by
    unfold keepNS
    simp [hk]
  intro fs
  induction fs with
  | nil =>
    show List.filter keepNS [(k, v)] = []
    simp [List.filter_cons, hkeep]
  | cons e rest ih =>
    obtain ⟨k', v'⟩ := e
    simp only [updateAssoc]
    by_cases he : k' = k
    · rw [if_pos he]
      subst he
      have h2 : keepNS (k', v') = false := by
        unfold keepNS at hkeep ⊢
        simpa using hkeep
      simp [List.filter_cons, hkeep, h2]
    · rw [if_neg he]
      simp only [List.filter_cons, ih]

theorem runPages_filter_keepNS :
    ∀ pages : List (List Char × List Char), ∀ fs out : List (List Char × List Char),
      runPages pages fs = Except.ok out → out.filter keepNS = fs.filter keepNS := by
  intro pages
  induction pages with
  | nil =>
    intro fs out h
    simp only [runPages] at h
    cases h
    rfl
  | cons pg rest ih =>
    intro fs out h
    obtain ⟨page, mkdown⟩ := pg
    simp only [runPages] at h
    cases hw : writePage (chars "sources/" ++ page)
      (lookupAssoc fs (chars "sources/" ++ page)) mkdown with
    | error e => rw [hw] at h; cases h
    | ok content =>
      rw [hw] at h
      have hout := ih _ _ h
      rw [hout, updateAssoc_filter_keepNS _ content
        (by rw [List.isPrefixOf_iff_prefix]; exact List.prefix_append _ page)]

theorem mdCopies_keepNS (fs : List (List Char × List Char)) :
    ∀ e ∈ mdCopies fs, keepNS e = false := by
  intro e he
  unfold mdCopies at he
  obtain ⟨a, hk, heq⟩ := List.mem_map.mp he
  have hpre : (chars "templates/").isPrefixOf a.1 := by
    have hf := (List.mem_filter.mp hk).2
    exact (Bool.and_eq_true _ _ |>.mp hf).1
  obtain ⟨r, hr⟩ := List.isPrefixOf_iff_prefix.mp hpre
  have hk2 : a.1 = chars "templates" ++ '/' :: r := by
    rw [← hr]; rfl
  have hkey : ∃ X : List Char,
      pyReplace a.1 (chars "templates") (chars "sources") = chars "sources/" ++ X := by
    rw [hk2, pyReplace_prefix_match (chars "templates") ('/' :: r) (chars "sources") 't'
      (chars "emplates") rfl]
    have hslash : ∃ Y : List Char,
        pyReplace ('/' :: r) (chars "templates") (chars "sources") = '/' :: Y := by
      unfold pyReplace
      rw [if_neg (by decide)]
      refine ⟨replaceGo (chars "templates") (chars "sources") (r.length + 1) r, ?_⟩
      show replaceGo (chars "templates") (chars "sources") (r.length + 1 + 1) ('/' :: r) = _
      simp only [replaceGo]
      rw [if_neg]
      intro hb
      exact not_isPrefixOf_cons (chars "templates") 't' (chars "emplates") '/' r rfl
        (by decide) hb.2
    obtain ⟨Y, hY⟩ := hslash
    refine ⟨Y, ?_⟩
    rw [hY]
    rfl
  obtain ⟨X, hX⟩ := hkey
  rw [← heq]
  unfold keepNS
  show (! (chars "sources/").isPrefixOf
    (pyReplace a.1 (chars "templates") (chars "sources"))) = false
  have hp : (chars "sources/").isPrefixOf (chars "sources/" ++ X) = true :=
    List.isPrefixOf_iff_prefix.mpr (List.prefix_append _ _)
  rw [hX, hp]
  rfl

theorem append_mdCopies_filter (x : List (List Char × List Char)) :
    (x ++ mdCopies x).filter keepNS = x.filter keepNS := by
  rw [List.filter_append]
  have : (mdCopies x).filter keepNS = [] := by
    rw [List.filter_eq_nil_iff]
    intro e he
    simp [mdCopies_keepNS x e he]
  rw [this, List.append_nil]

theorem lookupAssoc_filter_keep (k : List Char) (hk : keepNS (k, []) = true) :
    ∀ fs : List (List Char × List Char), lookupAssoc (fs.filter keepNS) k = lookupAssoc fs k
  := by
  intro fs
  induction fs with
  | nil => rfl
  | cons e rest ih =>
    obtain ⟨k', v'⟩ := e
    by_cases he : k' = k
    · subst he
      have : keepNS (k', v') = true := by
        unfold keepNS at hk ⊢
        simpa using hk
      simp [List.filter_cons, this, lookupAssoc]
    · by_cases hke : keepNS (k', v')
      · simp [List.filter_cons, hke, lookupAssoc, he, ih]
      · simp only [Bool.not_eq_true] at hke
        simp [List.filter_cons, hke, lookupAssoc, he, ih]

/-- Claim C9: the run is a function of the non-`sources` part of the file
system (manifest-generated page contents, templates, README); since each run
first deletes `sources/` and every write of the run lands under `sources/`,
running the script a second time on the output of a successful run produces
exactly the same output files. -/
theorem c9_idempotent (pages : List (List Char × List Char)) (readme : List Char)
    (fs out : List (List Char × List Char))
    (h : runScript pages readme fs = Except.ok out) :
    runScript pages readme out = Except.ok out := by
  have hfilter : out.filter keepNS = fs.filter keepNS := by
    unfold runScript runFrom at h
    cases hl : lookupAssoc (fs.filter keepNS) (chars "templates/index.md") with
    | none => rw [hl] at h; cases h
    | some idx =>
      rw [hl] at h
      have := runPages_filter_keepNS pages _ out h
      rw [this, updateAssoc_filter_keepNS _ _
        (by rw [List.isPrefixOf_iff_prefix]; exact ⟨chars "index.md", rfl⟩),
        append_mdCopies_filter, filter_keepNS_idem]
  have h2 := h
  unfold runScript at h2 ⊢
  rw [hfilter]
  exact h2

/-- Witness for C9: a concrete run and its verbatim re-run. -/
theorem c9_witness :
    runScript [] (chars "R") [(chars "templates/index.md", chars "X")] =
      Except.ok [(chars "templates/index.md", chars "X"),
        (chars "sources/index.md", chars "X")] ∧
    runScript [] (chars "R")
        [(chars "templates/index.md", chars "X"), (chars "sources/index.md", chars "X")] =
      Except.ok [(chars "templates/index.md", chars "X"),
        (chars "sources/index.md", chars "X")] := by
  have h1 : runScript [] (chars "R") [(chars "templates/index.md", chars "X")] =
      Except.ok [(chars "templates/index.md", chars "X"),
        (chars "sources/index.md", chars "X")] := by rfl
  exact ⟨h1, c9_idempotent [] (chars "R") _ _ h1⟩

/-! ## The docstring reformatter (`process_list_block`, `process_docstring`)

Every regex of the source is embedded as an executable scanner with the
exact leftmost/greedy semantics of Python `re`:
* `r"^ {n}"` and `r"^    "` drop an exact run of leading spaces;
* `r"^    ([^\s\\\(]+):(.*)"` matches when, after four spaces, the longest
  run of class characters contains a colon at position at least one; the
  group ends at the last such colon (greedy `+` with backtracking);
* `r"\n( +)# (.*)\n"` matches a newline, a maximal nonempty run of spaces
  directly followed by `"# "`, and a title закінчене by a newline — since a
  space run followed by anything but `#` cannot be shortened into a match,
  greedy backtracking never helps and maximal runs are the only candidates;
* `r"\n(\s+)# (.*)\n"` is the same with arbitrary whitespace (so also tabs
  and blank lines) before the `#`;
* `r":param(.*):"` consumes from a `:param` to the last colon on the same
  line, failing when the rest of the line holds no colon;
* `r":return: ([a-z])"` uppercases the letter after a `:return: `.
-/

/-- Embeds `re.sub("^" + " " * leading_spaces, "", line)`: remove an exact
run of `n` leading spaces when present. -/
def stripN (n : Nat) (l : List Char) : List Char :=
  if (List.replicate n ' ').isPrefixOf l then l.drop n else l

/-- Index of the last occurrence of a character. -/
def lastIdxOf (c : Char) : List Char → Option Nat
  | [] => none
  | x :: xs =>
    match lastIdxOf c xs with
    | some i => some (i + 1)
    | none => if x = c then some 0 else none

/-- Embeds `re.sub(r"^    ([^\s\\\(]+):(.*)", r"- __\1__:\2", line)`: after
four spaces, the greedy nonempty class-character group runs to the last
colon inside the maximal class run. -/
def topLevelSub (l : List Char) : List Char :=
  if (chars "    ").isPrefixOf l then
    match lastIdxOf ':' ((l.drop 4).takeWhile (fun c => isClassChar c)) with
    | some k =>
      if 1 ≤ k then
        chars "- __" ++ ((l.drop 4).takeWhile (fun c => isClassChar c)).take k ++
          chars "__:" ++ (l.drop 4).drop (k + 1)
      else l
    | none => l
  else l

/-- Embeds `re.sub(r"^    ", "", line)`. -/
def strip4 (l : List Char) : List Char :=
  if (chars "    ").isPrefixOf l then l.drop 4 else l

/-- Embeds the `indent`/`text_block` fix-up loop at the end of
`process_list_block`: a list element after a text block, and a line less
indented than the current list context, get a blank line prepended. -/
def fixTextLines : Nat → Bool → List (List Char) → List (List Char)
  | _, _, [] => []
  | indent, tb, l :: ls =>
    match l.findIdx? (fun c => ¬ isPySpace c) with
    | some i =>
      if l.getD i ' ' = '-' then
        (if tb then '\n' :: l else l) :: fixTextLines (i + 1) false ls
      else if i < indent then
        ('\n' :: l) :: fixTextLines i true ls
      else
        l :: fixTextLines indent tb ls
    | none => l :: fixTextLines 0 false ls

/-- The line pipeline of `process_list_block` applied to the captured
block. -/
def plbLines (block : List Char) (leading_spaces : Nat) : List (List Char) :=
  fixTextLines 0 false
    ((((splitNl block).map (stripN leading_spaces)).map topLevelSub).map strip4)

/-- The block `process_list_block` captures: from `starting_point` up to
one character before the next blank line (`docstring[starting_point :
ending_point - 1]`, with the source's off-by-one slice), or all the way to
the end when there is no blank line. -/
def listBlockOf (docstring : List Char) (starting_point : Nat) : List Char :=
  let ending_point := pyFindFrom docstring (chars "\n\n") starting_point
  if ending_point = -1 then docstring.drop starting_point
  else pySliceTo docstring starting_point (ending_point - 1)

/-- Embeds `process_list_block`: capture the block, replace the block text
by the marker, and reformat the block's lines. -/
def process_list_block (docstring : List Char) (starting_point leading_spaces : Nat)
    (marker : List Char) : List Char × List Char :=
  let block := listBlockOf docstring starting_point
  (pyReplace docstring block marker, joinNl (plbLines block leading_spaces))

/-- The `$CODE_BLOCK_%d` placeholder. -/
def markerFor (n : Nat) : List Char := chars "$CODE_BLOCK_" ++ (toString n).data

/-- The de-indentation count of a snippet: `snippet_lines[-1].find("`")`
(Python's negative slice semantics apply when the last line has no
backtick). -/
def dedentNum (snippet : List Char) : Int :=
  pyFindI ((splitNl snippet).getLastD []) ['`']

/-- The snippet lines after the closing fence's indentation is removed from
every line but the first. -/
def dedentLines1 (snippet : List Char) : List (List Char) :=
  match splitNl snippet with
  | [] => []
  | f :: rest => f :: rest.map (pyDropI (dedentNum snippet))

/-- One step of the interior minimum-indentation scan of
`process_docstring` (empty lines are skipped; a line of only whitespace
counts as indentation zero, as `count_leading_spaces` returns 0 without a
`\S` match). -/
def minLeadStep (acc : Option Nat) (line : List Char) : Option Nat :=
  if line = [] then acc
  else
    match acc with
    | none => some (count_leading_spaces line)
    | some m =>
      if count_leading_spaces line < m then some (count_leading_spaces line) else some m

/-- The minimum leading-space count over the interior lines
(`snippet_lines[1:-1]`), `none` when no nonempty interior line exists. -/
def dedentLeading (snippet : List Char) : Option Nat :=
  (((dedentLines1 snippet).drop 1).dropLast).foldl minLeadStep none

/-- Embeds the per-snippet de-indentation of `process_docstring`: remove the
closing fence's indentation from every line after the first, then remove the
minimum leading-space count of the nonempty interior lines when that
minimum is nonzero (`if leading_spaces:` — `None` and `0` are falsy). -/
def codeDedent (snippet : List Char) : List Char :=
  joinNl (match dedentLeading snippet with
    | some m =>
      if m ≠ 0 then
        [(dedentLines1 snippet).headD []] ++
          (((dedentLines1 snippet).drop 1).dropLast).map (fun l => l.drop m) ++
          [(dedentLines1 snippet).getLastD []]
      else dedentLines1 snippet
    | none => dedentLines1 snippet)

/-- Reposition at the next fence: `tmp = tmp[tmp.find("```"):]`. -/
def fenceAt (tmp : List Char) : List Char :=
  tmp.drop (pyFindI tmp (chars "```")).toNat

/-- The snippet length `index = tmp[3:].find("```") + 6` (which is `5` for
an unclosed fence, since `find` returns `-1`). -/
def snipLen (tmp : List Char) : Nat :=
  (pyFindI ((fenceAt tmp).drop 3) (chars "```") + 6).toNat

/-- The snippet `tmp[:index]` at the repositioned `tmp`. -/
def snippetAt (tmp : List Char) : List Char :=
  (fenceAt tmp).take (snipLen tmp)

/-- Embeds the `while "```" in tmp` extraction loop of `process_docstring`:
reposition `tmp` at the next fence, slice the snippet up to the closing
fence, replace the snippet in the docstring by its `$CODE_BLOCK_i` marker,
store the de-indented snippet, and continue after it.  Every iteration
consumes at least three characters of `tmp`, so `tmp.length + 1` fuel never
runs out. -/
def extractCode : Nat → List Char → List Char → List (List Char) →
    List Char × List (List Char)
  | 0, docstring, _, blocks => (docstring, blocks)
  | fuel + 1, docstring, tmp, blocks =>
    if (chars "```") <:+: tmp then
      extractCode fuel (pyReplace docstring (snippetAt tmp) (markerFor blocks.length))
        ((fenceAt tmp).drop (snipLen tmp)) (blocks ++ [codeDedent (snippetAt tmp)])
    else (docstring, blocks)

/-- First match of the section regex `r"\n( +)# (.*)\n"` in a string:
returns the match end (relative to the searched string), the size of the
space run, and the title. -/
def findSectionGo : List Char → Nat → Option (Nat × Nat × List Char)
  | [], _ => none
  | c :: cs, pos =>
    if c = '\n' then
      let sp := cs.takeWhile (fun x => x = ' ')
      let rest := cs.drop sp.length
      if 1 ≤ sp.length ∧ (chars "# ").isPrefixOf rest then
        let title := (rest.drop 2).takeWhile (fun x => x ≠ '\n')
        let rest2 := (rest.drop 2).drop title.length
        if rest2 ≠ [] then
          some (pos + 1 + sp.length + 2 + title.length + 1, sp.length, title)
        else findSectionGo cs (pos + 1)
      else findSectionGo cs (pos + 1)
    else findSectionGo cs (pos + 1)

/-- Embeds `re.search(section_regex, d)`. -/
def findSection (d : List Char) : Option (Nat × Nat × List Char) :=
  findSectionGo d 0

/-- The `"$" + anchor.replace(" ", "_") + "$"` section marker. -/
def sectionMarker (anchor : List Char) : List Char :=
  '$' :: (anchor.map (fun c => if c = ' ' then '_' else c)) ++ ['$']

/-- Embeds the section loop of `process_docstring`: search the docstring
after `shift` for a section header, stop when none is found or its title is
empty, otherwise advance `shift` past the header, extract and reformat the
following block, and record it in the `sections` dict (insertion-ordered,
overwriting in place).  The source's `while` has no explicit bound; the fuel
bounds the iteration count, and `d.length + 1` covers every docstring on
which the loop advances by at least one header per character. -/
def sectionLoop : Nat → List Char → Nat → List (List Char × List Char) →
    List Char × List (List Char × List Char)
  | 0, d, _, secs => (d, secs)
  | fuel + 1, d, shift, secs =>
    match findSection (d.drop shift) with
    | some (e, ns, anchor) =>
      if anchor ≠ [] then
        let shift1 := shift + e
        let marker := sectionMarker anchor
        let r := process_list_block d shift1 ns marker
        sectionLoop fuel r.1 shift1 (updateAssoc secs marker r.2)
      else (d, secs)
    | none => (d, secs)

/-- One candidate of the title regex `r"\n(\s+)# (.*)\n"` right after a
newline: a maximal nonempty whitespace run, `"# "`, the title, and the
closing newline; returns the run, the title and the rest after the match. -/
def tryTitle (cs : List Char) : Option (List Char × List Char × List Char) :=
  let ws := cs.takeWhile (fun c => isPySpace c)
  let rest1 := cs.drop ws.length
  if 1 ≤ ws.length ∧ (chars "# ").isPrefixOf rest1 then
    let title := (rest1.drop 2).takeWhile (fun c => c ≠ '\n')
    let rest2 := (rest1.drop 2).drop title.length
    if rest2 ≠ [] then some (ws, title, rest2.drop 1) else none
  else none

/-- Embeds `re.sub(r"\n(\s+)# (.*)\n", r"\n\1__\2__\n\n", d)`: scan left to
right, replace each match and resume after its trailing newline. -/
def subTitleGo : Nat → List Char → List Char
  | 0, s => s
  | _ + 1, [] => []
  | fuel + 1, c :: cs =>
    if c = '\n' then
      match tryTitle cs with
      | some wtr =>
        '\n' :: wtr.1 ++ chars "__" ++ wtr.2.1 ++ chars "__\n\n" ++ subTitleGo fuel wtr.2.2
      | none => c :: subTitleGo fuel cs
    else c :: subTitleGo fuel cs

/-- The title substitution with adequate fuel. -/
def subTitle (d : List Char) : List Char := subTitleGo (d.length + 1) d

/-- Whether the title regex `r"\n(\s+)# (.*)\n"` matches anywhere. -/
def hasTitle : List Char → Bool
  | [] => false
  | c :: cs => (c = '\n' && (tryTitle cs).isSome) || hasTitle cs

/-- Reinject the section blocks (`for marker, content in sections.items()`),
in insertion order. -/
def reinjectSections (secs : List (List Char × List Char)) (d : List Char) : List Char :=
  secs.foldl (fun acc kv => pyReplace acc kv.1 kv.2) d

/-- Reinject the code blocks (`for i, code_block in enumerate(code_blocks)`). -/
def reinjectCode : Nat → List (List Char) → List Char → List Char
  | _, [], d => d
  | i, b :: bs, d => reinjectCode (i + 1) bs (pyReplace d (markerFor i) b)

/-- Split a segment at its last colon: `some (before, after)` when the
segment holds a colon. -/
def lastColonSplit : List Char → Option (List Char × List Char)
  | [] => none
  | c :: cs =>
    match lastColonSplit cs with
    | some ab => some (c :: ab.1, ab.2)
    | none => if c = ':' then some ([], cs) else none

/-- Embeds `re.sub(r":param(.*):", r"\n- `\1`:", d)`: at each `:param`, the
greedy group runs to the last colon on the same line; without such a colon
there is no match at this position and scanning advances one character. -/
def subParamGo : Nat → List Char → List Char
  | 0, s => s
  | _ + 1, [] => []
  | fuel + 1, c :: cs =>
    if (chars ":param").isPrefixOf (c :: cs) then
      match lastColonSplit (((c :: cs).drop 6).takeWhile (fun x => x ≠ '\n')) with
      | some ab =>
        chars "\n- `" ++ ab.1 ++ chars "`:" ++
          subParamGo fuel (ab.2 ++ ((c :: cs).drop 6).drop
            ((((c :: cs).drop 6).takeWhile (fun x => x ≠ '\n')).length))
      | none => c :: subParamGo fuel cs
    else c :: subParamGo fuel cs

/-- The `:param` list substitution with adequate fuel. -/
def subParam (d : List Char) : List Char := subParamGo (d.length + 1) d

/-- Embeds `re.sub(r":return: ([a-z])", lambda m: ..., d)`: uppercase the
lower-case letter directly after each `:return: `. -/
def subRetCapGo : Nat → List Char → List Char
  | 0, s => s
  | _ + 1, [] => []
  | fuel + 1, c :: cs =>
    if (chars ":return: ").isPrefixOf (c :: cs) then
      match (c :: cs).drop 9 with
      | d :: rest =>
        if 'a' ≤ d ∧ d ≤ 'z' then
          chars ":return: " ++ d.toUpper :: subRetCapGo fuel rest
        else c :: subRetCapGo fuel cs
      | [] => c :: subRetCapGo fuel cs
    else c :: subRetCapGo fuel cs

/-- The `:return:` capitalization with adequate fuel. -/
def subRetCap (d : List Char) : List Char := subRetCapGo (d.length + 1) d

/-- The code-block phase of `process_docstring`: the extraction loop runs
only when the docstring holds a fence (`if "```" in docstring:`). -/
def pdCode (docstring : List Char) : List Char × List (List Char) :=
  if (chars "```") <:+: docstring then
    extractCode (docstring.length + 1) docstring docstring []
  else (docstring, [])

/-- The section phase of `process_docstring`, run on the docstring with the
code blocks already replaced by markers. -/
def pdSections (docstring : List Char) : List Char × List (List Char × List Char) :=
  sectionLoop ((pdCode docstring).1.length + 1) (pdCode docstring).1 0 []

/-- Embeds `process_docstring`: extract and de-indent the fenced code
blocks, extract and reformat the marked sections, turn remaining section
markers into bold inline headings, strip the leading spaces of every line,
reinject the section blocks and then the code blocks, and apply the
`:param`/`:return:` conventions. -/
def process_docstring (docstring : List Char) : List Char :=
  pyReplace
    (subRetCap (subParam (pyReplace1
      (reinjectCode 0 (pdCode docstring).2
        (reinjectSections (pdSections docstring).2
          (lstripLines (subTitle (pdSections docstring).1))))
      (chars ":param") (chars "\n**Arguments**  \n:param"))))
    (chars ":return:") (chars "\n**Return**  \n")

/-! ## Claim C4: the list-block bullets -/

theorem takeWhile_append_all (p : Char → Bool) (x y : List Char)
    (hx : ∀ c ∈ x, p c = true) : (x ++ y).takeWhile p = x ++ y.takeWhile p := by
  induction x with
  | nil => simp
  | cons a x' ih =>
    have ha : p a = true := hx a (List.mem_cons_self a x')
    simp only [List.cons_append, List.takeWhile_cons, ha, if_true]
    rw [ih (fun c hc => hx c (List.mem_cons_of_mem a hc))]

theorem lastIdxOf_not_mem (c : Char) (l : List Char) (hc : c ∉ l) :
    lastIdxOf c l = none := by
  induction l with
  | nil => rfl
  | cons x xs ih =>
    simp only [lastIdxOf]
    rw [ih (fun hm => hc (List.mem_cons_of_mem x hm))]
    simp only
    rw [if_neg]
    intro he
    exact hc (by rw [← he]; exact List.mem_cons_self x xs)

theorem lastIdxOf_append (x w : List Char) (hw : ':' ∉ w) :
    lastIdxOf ':' (x ++ ':' :: w) = some x.length := by
  induction x with
  | nil =>
    simp only [List.nil_append, lastIdxOf]
    rw [lastIdxOf_not_mem ':' w hw]
    simp
  | cons a x' ih =>
    simp only [List.cons_append, lastIdxOf, List.append_eq]
    rw [ih]
    rfl

theorem stripN_replicate (n : Nat) (x : List Char) :
    stripN n (List.replicate n ' ' ++ x) = x := by
  unfold stripN
  rw [if_pos (List.isPrefixOf_iff_prefix.mpr (List.prefix_append _ _)),
    List.drop_left' (List.length_replicate n ' ')]

theorem topLevelSub_match (key desc : List Char) (hkey : key ≠ [])
    (hclass : ∀ c ∈ key, isClassChar c = true)
    (hgreedy : ':' ∉ desc.takeWhile (fun c => isClassChar c)) :
    topLevelSub (chars "    " ++ key ++ ':' :: desc) =
      chars "- __" ++ key ++ chars "__:" ++ desc := by
  unfold topLevelSub
  rw [if_pos (List.isPrefixOf_iff_prefix.mpr (by
    rw [List.append_assoc]
    exact List.prefix_append _ _))]
  have hdrop : (chars "    " ++ key ++ ':' :: desc).drop 4 = key ++ ':' :: desc := by
    rw [List.append_assoc]
    exact List.drop_left' rfl
  rw [hdrop]
  have htw : (key ++ ':' :: desc).takeWhile (fun c => isClassChar c) =
      key ++ ':' :: desc.takeWhile (fun c => isClassChar c) := by
    rw [takeWhile_append_all (fun c => isClassChar c) key (':' :: desc) hclass]
    rfl
  rw [htw, lastIdxOf_append key _ hgreedy]
  show (if 1 ≤ key.length then
      chars "- __" ++ (key ++ ':' :: desc.takeWhile (fun c => isClassChar c)).take key.length ++
        chars "__:" ++ (key ++ ':' :: desc).drop (key.length + 1)
    else chars "    " ++ key ++ ':' :: desc) = chars "- __" ++ key ++ chars "__:" ++ desc
  rw [if_pos (by
    cases key with
    | nil => exact absurd rfl hkey
    | cons a as => simp)]
  have htake : (key ++ ':' :: desc.takeWhile (fun c => isClassChar c)).take key.length = key :=
    List.take_left key _
  have hdrop2 : (key ++ ':' :: desc).drop (key.length + 1) = desc := by
    have hsh : key ++ ':' :: desc = (key ++ [':']) ++ desc := by simp
    rw [hsh]
    exact List.drop_left' (by simp)
  rw [htake, hdrop2]

theorem strip4_dash (l : List Char) (hl : l = '-' :: l.tail) : strip4 l = l := by
  unfold strip4
  rw [if_neg]
  intro hb
  rw [hl] at hb
  exact absurd ((List.cons_prefix_cons.mp (List.isPrefixOf_iff_prefix.mp hb)).1) (by decide)

theorem fixTextLines_getElem? :
    ∀ lines : List (List Char), ∀ ind : Nat, ∀ tb : Bool, ∀ i : Nat, ∀ l : List Char,
      lines[i]? = some l →
      (fixTextLines ind tb lines)[i]? = some l ∨
        (fixTextLines ind tb lines)[i]? = some ('\n' :: l) := by
  intro lines
  induction lines with
  | nil => intro ind tb i l h; simp at h
  | cons x xs ih =>
    intro ind tb i l h
    cases i with
    | zero =>
      simp only [List.getElem?_cons_zero, Option.some.injEq] at h
      subst h
      simp only [fixTextLines]
      cases hf : x.findIdx? (fun c => ¬ isPySpace c) with
      | some j =>
        simp only
        by_cases h1 : x.getD j ' ' = '-'
        · rw [if_pos h1]
          cases tb <;> simp
        · rw [if_neg h1]
          by_cases h2 : j < ind
          · rw [if_pos h2]; simp
          · rw [if_neg h2]; simp
      | none => simp
    | succ i2 =>
      simp only [List.getElem?_cons_succ] at h
      simp only [fixTextLines]
      cases hf : x.findIdx? (fun c => ¬ isPySpace c) with
      | some j =>
        simp only
        by_cases h1 : x.getD j ' ' = '-'
        · rw [if_pos h1]
          simpa using ih (j + 1) false i2 l h
        · rw [if_neg h1]
          by_cases h2 : j < ind
          · rw [if_pos h2]
            simpa using ih j true i2 l h
          · rw [if_neg h2]
            simpa using ih ind tb i2 l h
      | none =>
        simpa using ih 0 false i2 l h

/-- Counterexample to claim C4 as stated: the code renders the bullet with
double underscores (`- __key__:`), not with double asterisks (`- **key**:`)
as the claim's literal text has it.  For the block `"    a: b"` the rendered
block is exactly `"- __a__: b"` and contains no `- **a**`. -/
theorem c4_counterexample :
    (process_list_block (chars "    a: b") 0 0 (chars "$M$")).2 = chars "- __a__: b" ∧
      ¬ (chars "- **a**") <:+: (process_list_block (chars "    a: b") 0 0 (chars "$M$")).2 := by
  constructor
  · decide
  · decide

/-- Claim C4 as amended: in `process_list_block`, every top-level line of
the captured section block — a line indented by the section indentation
plus exactly four spaces, whose key is a nonempty run of
non-whitespace/backslash/parenthesis characters ending at the last such
colon (the regex is greedy) — is rendered as the bullet item
`- __key__:description` with the key bold in Markdown via double
underscores, one bullet per such line at the same position, with at most a
blank line prepended by the text-fix pass. -/
theorem c4_list_block_amended (docstring : List Char) (start ls : Nat)
    (marker : List Char) (i : Nat) (key desc : List Char)
    (hline : (splitNl (listBlockOf docstring start))[i]? =
      some (List.replicate ls ' ' ++ chars "    " ++ key ++ ':' :: desc))
    (hkey : key ≠ []) (hclass : ∀ c ∈ key, isClassChar c = true)
    (hgreedy : ':' ∉ desc.takeWhile (fun c => isClassChar c)) :
    (process_list_block docstring start ls marker).2 =
      joinNl (plbLines (listBlockOf docstring start) ls) ∧
    ((plbLines (listBlockOf docstring start) ls)[i]? =
        some (chars "- __" ++ key ++ chars "__:" ++ desc) ∨
      (plbLines (listBlockOf docstring start) ls)[i]? =
        some ('\n' :: (chars "- __" ++ key ++ chars "__:" ++ desc))) := by
  refine ⟨rfl, ?_⟩
  unfold plbLines
  set L := splitNl (listBlockOf docstring start) with hL
  have h1 : (L.map (stripN ls))[i]? = some (chars "    " ++ key ++ ':' :: desc) := by
    rw [List.getElem?_map, hline]
    simp only [Option.map_some']
    rw [show List.replicate ls ' ' ++ chars "    " ++ key ++ ':' :: desc =
      List.replicate ls ' ' ++ (chars "    " ++ key ++ ':' :: desc) by simp]
    rw [stripN_replicate]
  have h2 : ((L.map (stripN ls)).map topLevelSub)[i]? =
      some (chars "- __" ++ key ++ chars "__:" ++ desc) := by
    rw [List.getElem?_map, h1]
    simp only [Option.map_some']
    rw [topLevelSub_match key desc hkey hclass hgreedy]
  have h3 : (((L.map (stripN ls)).map topLevelSub).map strip4)[i]? =
      some (chars "- __" ++ key ++ chars "__:" ++ desc) := by
    rw [List.getElem?_map, h2]
    simp only [Option.map_some']
    rw [strip4_dash _ rfl]
  exact fixTextLines_getElem? _ 0 false i _ h3

/-- Witness for the amended C4 at the concrete block `"    a: b"`. -/
theorem c4_witness :
    (plbLines (listBlockOf (chars "    a: b") 0) 0)[0]? =
        some (chars "- __" ++ chars "a" ++ chars "__:" ++ chars " b") ∨
      (plbLines (listBlockOf (chars "    a: b") 0) 0)[0]? =
        some ('\n' :: (chars "- __" ++ chars "a" ++ chars "__:" ++ chars " b")) :=
  (c4_list_block_amended (chars "    a: b") 0 0 (chars "$M$") 0 (chars "a") (chars " b")
    (by decide) (by decide) (by decide) (by decide)).2

/-! ## Claim C10: docstrings with none of the special markup -/

theorem takeWhile_drop_decomp (q : Char → Bool) (cs : List Char) :
    cs = cs.takeWhile q ++ cs.drop (cs.takeWhile q).length := by
  induction cs with
  | nil => rfl
  | cons c cs' ih =>
    by_cases hq : q c
    · rw [List.takeWhile_cons, if_pos hq]
      simpa using ih
    · rw [List.takeWhile_cons, if_neg hq]
      simp

theorem takeWhile_append_stop (p : Char → Bool) (x y : List Char)
    (hx : ∀ c ∈ x, p c = true) (hy : ∀ h rest, y = h :: rest → p h = false) :
    (x ++ y).takeWhile p = x := by
  rw [takeWhile_append_all p x y hx]
  cases y with
  | nil => simp
  | cons h rest =>
    rw [List.takeWhile_cons, if_neg (by rw [hy h rest rfl]; simp)]
    simp

theorem tryTitle_of_section (cs : List Char)
    (hsp : 1 ≤ (cs.takeWhile (fun x => x = ' ')).length)
    (hpre : (chars "# ").isPrefixOf (cs.drop (cs.takeWhile (fun x => x = ' ')).length))
    (hrest : ((cs.drop (cs.takeWhile (fun x => x = ' ')).length).drop 2).drop
      (((cs.drop (cs.takeWhile (fun x => x = ' ')).length).drop 2).takeWhile
        (fun x => x ≠ '\n')).length ≠ []) :
    (tryTitle cs).isSome = true := by
  have hws : cs.takeWhile (fun c => isPySpace c) = cs.takeWhile (fun x => x = ' ') := by
    conv_lhs => rw [takeWhile_drop_decomp (fun x => x = ' ') cs]
    apply takeWhile_append_stop
    · intro c hc
      have := List.mem_takeWhile_imp hc
      simp at this
      simp [this, isPySpace]
    · intro h rest hrest2
      obtain ⟨t, ht⟩ := List.isPrefixOf_iff_prefix.mp hpre
      rw [hrest2] at ht
      have hh : h = '#' := by
        have hsy := ht.symm
        simp [chars] at hsy
        exact hsy.1
      rw [hh]
      decide
  unfold tryTitle
  rw [hws]
  rw [if_pos ⟨hsp, hpre⟩]
  rw [if_pos hrest]
  rfl

theorem findSectionGo_none (d : List Char) (ht : hasTitle d = false) :
    ∀ pos : Nat, findSectionGo d pos = none := by
  induction d with
  | nil => intro pos; rfl
  | cons c cs ih =>
    intro pos
    have hsplit : (c = '\n' → (tryTitle cs).isSome = false) ∧ hasTitle cs = false := by
      unfold hasTitle at ht
      constructor
      · intro hc
        subst hc
        by_cases hs : (tryTitle cs).isSome
        · simp [hs] at ht
        · simpa using hs
      · rcases Bool.or_eq_false_iff.mp ht with ⟨_, h2⟩
        exact h2
    unfold findSectionGo
    by_cases hc : c = '\n'
    · rw [if_pos hc]
      by_cases h1 : 1 ≤ (cs.takeWhile (fun x => x = ' ')).length ∧
          (chars "# ").isPrefixOf (cs.drop (cs.takeWhile (fun x => x = ' ')).length)
      · rw [if_pos h1]
        by_cases h2 : ((cs.drop (cs.takeWhile (fun x => x = ' ')).length).drop 2).drop
            (((cs.drop (cs.takeWhile (fun x => x = ' ')).length).drop 2).takeWhile
              (fun x => x ≠ '\n')).length ≠ []
        · exact absurd (tryTitle_of_section cs h1.1 h1.2 h2)
            (by rw [hsplit.1 hc]; simp)
        · rw [if_neg h2]
          exact ih hsplit.2 (pos + 1)
      · rw [if_neg h1]
        exact ih hsplit.2 (pos + 1)
    · rw [if_neg hc]
      exact ih hsplit.2 (pos + 1)

theorem subTitleGo_id : ∀ fuel : Nat, ∀ d : List Char, hasTitle d = false →
    subTitleGo fuel d = d := by
  intro fuel
  induction fuel with
  | zero => intro d _; rfl
  | succ f ih =>
    intro d ht
    cases d with
    | nil => rfl
    | cons c cs =>
      have hcs : hasTitle cs = false := by
        unfold hasTitle at ht
        exact (Bool.or_eq_false_iff.mp ht).2
      unfold subTitleGo
      by_cases hc : c = '\n'
      · rw [if_pos hc]
        have hnone : tryTitle cs = none := by
          unfold hasTitle at ht
          rcases Bool.or_eq_false_iff.mp ht with ⟨h1, _⟩
          rcases Bool.and_eq_false_iff.mp h1 with h | h
          · rw [hc] at h; simp at h
          · cases htt : tryTitle cs with
            | none => rfl
            | some v => rw [htt] at h; simp at h
        rw [hnone]
        rw [ih cs hcs]
      · rw [if_neg hc]
        rw [ih cs hcs]

theorem subTitle_id (d : List Char) (ht : hasTitle d = false) : subTitle d = d :=
  subTitleGo_id (d.length + 1) d ht

theorem subParamGo_id : ∀ fuel : Nat, ∀ d : List Char, ¬ (chars ":param") <:+: d →
    subParamGo fuel d = d := by
  intro fuel
  induction fuel with
  | zero => intro d _; rfl
  | succ f ih =>
    intro d hinf
    cases d with
    | nil => rfl
    | cons c cs =>
      unfold subParamGo
      rw [if_neg, ih cs]
      · intro h
        exact hinf (h.trans (List.suffix_cons c cs).isInfix)
      · intro hp
        exact hinf (List.isPrefixOf_iff_prefix.mp hp).isInfix

theorem subParam_id (d : List Char) (h : ¬ (chars ":param") <:+: d) : subParam d = d :=
  subParamGo_id (d.length + 1) d h

theorem subRetCapGo_id : ∀ fuel : Nat, ∀ d : List Char, ¬ (chars ":return:") <:+: d →
    subRetCapGo fuel d = d := by
  intro fuel
  induction fuel with
  | zero => intro d _; rfl
  | succ f ih =>
    intro d hinf
    cases d with
    | nil => rfl
    | cons c cs =>
      unfold subRetCapGo
      rw [if_neg, ih cs]
      · intro h
        exact hinf (h.trans (List.suffix_cons c cs).isInfix)
      · intro hp
        have h8 : (chars ":return:") <+: (chars ":return: ") := by decide
        exact hinf (h8.trans (List.isPrefixOf_iff_prefix.mp hp)).isInfix

theorem subRetCap_id (d : List Char) (h : ¬ (chars ":return:") <:+: d) : subRetCap d = d :=
  subRetCapGo_id (d.length + 1) d h

theorem replaceGo_of_not_infix (pat rep : List Char) :
    ∀ fuel : Nat, ∀ s : List Char, ¬ pat <:+: s → replaceGo pat rep fuel s = s := by
  intro fuel
  induction fuel with
  | zero => intro s _; cases s <;> rfl
  | succ f ih =>
    intro s hinf
    cases s with
    | nil => rfl
    | cons c cs =>
      unfold replaceGo
      rw [if_neg, ih cs]
      · intro h
        exact hinf (h.trans (List.suffix_cons c cs).isInfix)
      · intro hb
        exact hinf (List.isPrefixOf_iff_prefix.mp hb.2).isInfix

theorem pyReplace_of_not_infix (s pat rep : List Char) (h : ¬ pat <:+: s) :
    pyReplace s pat rep = s := by
  cases hp : pat with
  | nil => exact absurd (hp ▸ List.nil_infix) h
  | cons a as =>
    unfold pyReplace
    rw [if_neg (by simp [hp])]
    exact replaceGo_of_not_infix (a :: as) rep (s.length + 1) s (by rw [← hp]; exact h)

theorem prefix_append_nl (pat : List Char) (hnl : '\n' ∉ pat) :
    ∀ x y : List Char, pat <+: (x ++ '\n' :: y) → pat <+: x := by
  induction pat with
  | nil => intro x y _; exact List.nil_prefix
  | cons p ps ih =>
    intro x y hpre
    cases x with
    | nil =>
      rw [List.nil_append] at hpre
      have : p = '\n' := (List.cons_prefix_cons.mp hpre).1
      exact absurd (this ▸ List.mem_cons_self p ps) hnl
    | cons a x' =>
      rw [List.cons_append] at hpre
      obtain ⟨hpa, htl⟩ := List.cons_prefix_cons.mp hpre
      exact hpa ▸ List.cons_prefix_cons.mpr
        ⟨rfl, ih (fun hm => hnl (List.mem_cons_of_mem p hm)) x' y htl⟩

theorem infix_append_nl_split (pat : List Char) (hnl : '\n' ∉ pat) :
    ∀ x y : List Char, pat <:+: (x ++ '\n' :: y) → pat <:+: x ∨ pat <:+: y := by
  intro x
  induction x with
  | nil =>
    intro y h
    rw [List.nil_append] at h
    rcases List.infix_cons_iff.mp h with h | h
    · cases hp : pat with
      | nil => exact Or.inl (hp ▸ List.nil_infix)
      | cons p ps =>
        rw [hp] at h
        have : p = '\n' := (List.cons_prefix_cons.mp h).1
        exact absurd (hp ▸ this ▸ List.mem_cons_self p ps) hnl
    · exact Or.inr h
  | cons a x' ih =>
    intro y h
    rw [List.cons_append] at h
    rcases List.infix_cons_iff.mp h with h | h
    · have : pat <+: a :: x' := by
        have hx : a :: (x' ++ '\n' :: y) = (a :: x') ++ '\n' :: y := by simp
        rw [hx] at h
        exact prefix_append_nl pat hnl (a :: x') y h
      exact Or.inl this.isInfix
    · rcases ih y h with h' | h'
      · exact Or.inl (List.infix_cons_iff.mpr (Or.inr h'))
      · exact Or.inr h'

theorem infix_joinNl (pat : List Char) (hnl : '\n' ∉ pat) (hne : pat ≠ []) :
    ∀ L : List (List Char), pat <:+: joinNl L → ∃ l ∈ L, pat <:+: l := by
  intro L
  induction L with
  | nil =>
    intro h
    exact absurd (List.eq_nil_of_infix_nil h) hne
  | cons l ls ih =>
    intro h
    cases ls with
    | nil => exact ⟨l, by simp, h⟩
    | cons a as =>
      rw [joinNl_cons l (a :: as) (by simp)] at h
      rcases infix_append_nl_split pat hnl l (joinNl (a :: as)) h with h' | h'
      · exact ⟨l, by simp, h'⟩
      · obtain ⟨x, hx, hinf⟩ := ih h'
        exact ⟨x, List.mem_cons_of_mem l hx, hinf⟩

theorem mem_joinNl_infix (l : List Char) :
    ∀ L : List (List Char), l ∈ L → l <:+: joinNl L := by
  intro L
  induction L with
  | nil => intro h; exact absurd h (List.not_mem_nil l)
  | cons x xs ih =>
    intro h
    rcases List.mem_cons.mp h with h | h
    · subst h
      cases xs with
      | nil => exact List.infix_refl l
      | cons a as =>
        rw [joinNl_cons l (a :: as) (by simp)]
        exact (List.prefix_append l _).isInfix
    · cases xs with
      | nil => exact absurd h (List.not_mem_nil l)
      | cons a as =>
        rw [joinNl_cons x (a :: as) (by simp)]
        exact (ih h).trans
          (((List.suffix_cons '\n' (joinNl (a :: as))).trans
            (List.suffix_append x _)).isInfix)

theorem mem_splitNl_infix (l d : List Char) (h : l ∈ splitNl d) : l <:+: d := by
  have := mem_joinNl_infix l (splitNl d) h
  rwa [joinNl_splitNl d] at this

/-- A pattern without newlines or spaces that occurs in the
leading-space-stripped docstring already occurs in the docstring: each
stripped line is a suffix of its original line. -/
theorem infix_of_infix_lstripLines (pat d : List Char) (hnl : '\n' ∉ pat)
    (hne : pat ≠ []) (h : pat <:+: lstripLines d) : pat <:+: d := by
  unfold lstripLines at h
  obtain ⟨l, hl, hinf⟩ := infix_joinNl pat hnl hne _ h
  obtain ⟨l0, hl0, hmap⟩ := List.mem_map.mp hl
  have hsuf : lstripSpaces l0 <:+ l0 := List.dropWhile_suffix _
  have : pat <:+: l0 := by
    rw [← hmap] at hinf
    exact hinf.trans hsuf.isInfix
  exact this.trans ( mem_splitNl_infix l0 d hl0)

/-- Counterexample to claim C10 as stated: the docstring `"x\n\n# T\ny"`
has no fence, no `:param`, no `:return:`, and no `# <Title>` line preceded
by indentation (the title line starts at column zero, after a blank line);
yet `process_docstring` does not merely strip leading spaces — the title
substitution `r"\n(\s+)# (.*)\n"` also fires across the blank line (`\s+`
matches the newline), bolding the title and adding a line. -/
theorem c10_counterexample :
    process_docstring (chars "x\n\n# T\ny") = chars "x\n\n__T__\n\ny" ∧
      process_docstring (chars "x\n\n# T\ny") ≠ lstripLines (chars "x\n\n# T\ny") ∧
      (splitNl (process_docstring (chars "x\n\n# T\ny"))).length ≠
        (splitNl (chars "x\n\n# T\ny")).length := by
  refine ⟨by decide, by decide, by decide⟩

/-- Claim C10 as amended: for a docstring with no triple-backtick fence, no
`:param`, no `:return:`, and no match of the title pattern `\n(\s+)# (.*)\n`
(a `# ` line preceded by any whitespace — spaces, tabs or blank lines — and
terminated by a newline; this is the code's notion of a section-marker
line, wider than "preceded by indentation"), `process_docstring` returns
the docstring with the leading spaces of every line removed and nothing
else changed. -/
theorem c10_plain_docstring_amended (d : List Char)
    (hfence : ¬ (chars "```") <:+: d)
    (htitle : hasTitle d = false)
    (hparam : ¬ (chars ":param") <:+: d)
    (hret : ¬ (chars ":return:") <:+: d) :
    process_docstring d = lstripLines d := by
  have hc : pdCode d = (d, []) := by
    unfold pdCode
    rw [if_neg hfence]
  have hs : pdSections d = (d, []) := by
    unfold pdSections
    rw [hc]
    show sectionLoop (d.length + 1) d 0 [] = (d, [])
    unfold sectionLoop
    have : findSection (d.drop 0) = none := by
      rw [List.drop_zero]
      exact findSectionGo_none d htitle 0
    rw [this]
  have hparam2 : ¬ (chars ":param") <:+: lstripLines d := fun hin =>
    hparam (infix_of_infix_lstripLines _ d (by decide) (by decide) hin)
  have hret2 : ¬ (chars ":return:") <:+: lstripLines d := fun hin =>
    hret (infix_of_infix_lstripLines _ d (by decide) (by decide) hin)
  unfold process_docstring
  rw [hc, hs, subTitle_id d htitle]
  show pyReplace (subRetCap (subParam (pyReplace1 (lstripLines d) (chars ":param")
    (chars "\n**Arguments**  \n:param")))) (chars ":return:") (chars "\n**Return**  \n") = _
  rw [ pyReplace1_of_not_infix _ _ _ hparam2, subParam_id _ hparam2, subRetCap_id _ hret2,
    pyReplace_of_not_infix _ _ _ hret2]

/-- Witness for the amended C10 at a concrete plain docstring. -/
theorem c10_witness :
    process_docstring (chars "Doc line one.\n    Indented text.\nEnd.") =
      lstripLines (chars "Doc line one.\n    Indented text.\nEnd.") :=
  c10_plain_docstring_amended (chars "Doc line one.\n    Indented text.\nEnd.")
    (by decide) (by decide) (by decide) (by decide)

/-! ## Claim C1: fenced code blocks -/

theorem extractCode_no_fence (tmp : List Char) (htmp : '`' ∉ tmp) :
    ∀ fuel : Nat, ∀ d : List Char, ∀ b : List (List Char),
      extractCode fuel d tmp b = (d, b) := by
  intro fuel d b
  cases fuel with
  | zero => rfl
  | succ f =>
    unfold extractCode
    rw [if_neg]
    intro hinf
    exact htmp (hinf.mem (by decide))

theorem hasTitle_false_of_no_hash (d : List Char) (hd : '#' ∉ d) :
    hasTitle d = false := by
  induction d with
  | nil => rfl
  | cons c cs ih =>
    unfold hasTitle
    have hcs : '#' ∉ cs := fun hm => hd (List.mem_cons_of_mem c hm)
    rw [ih hcs]
    have htt : tryTitle cs = none := by
      unfold tryTitle
      rw [if_neg]
      intro hcond
      obtain ⟨t, ht⟩ := List.isPrefixOf_iff_prefix.mp hcond.2
      have hhash : '#' ∈ cs.drop (cs.takeWhile (fun c => isPySpace c)).length := by
        rw [← ht]
        simp [chars]
      exact hcs (List.mem_of_mem_drop hhash)
    rw [htt]
    simp

theorem dropWhile_replicate_append (x : List Char) :
    ∀ j : Nat, (List.replicate j ' ' ++ x).dropWhile (· = ' ') = x.dropWhile (· = ' ') := by
  intro j
  induction j with
  | zero => simp
  | succ n ih =>
    rw [List.replicate_succ, List.cons_append, List.dropWhile_cons]
    rw [if_pos (by decide)]
    exact ih

theorem mem_joinNl (c : Char) : ∀ L : List (List Char), c ∈ joinNl L →
    c = '\n' ∨ ∃ l ∈ L, c ∈ l := by
  intro L
  induction L with
  | nil => intro h; simp [joinNl] at h
  | cons x xs ih =>
    intro h
    cases xs with
    | nil =>
      right
      exact ⟨x, by simp, by simpa [joinNl] using h⟩
    | cons a as =>
      rw [joinNl_cons x (a :: as) (by simp)] at h
      rcases List.mem_append.mp h with h | h
      · exact Or.inr ⟨x, by simp, h⟩
      · rcases List.mem_cons.mp h with h | h
        · exact Or.inl h
        · rcases ih h with h' | ⟨l, hl, hcl⟩
          · exact Or.inl h'
          · exact Or.inr ⟨l, List.mem_cons_of_mem x hl, hcl⟩

theorem getLastD_mem (l : List Char) (h : l ≠ []) : ∀ d : Char, l.getLastD d ∈ l := by
  induction l with
  | nil => exact absurd rfl h
  | cons a as ih =>
    intro d
    cases has : as with
    | nil => simp [List.getLastD]
    | cons b bs =>
      rw [List.getLastD_cons]
      subst has
      exact List.mem_cons_of_mem a (ih (by simp) a)

theorem getLastD_mem_lines (l : List (List Char)) (h : l ≠ []) :
    ∀ d : List Char, l.getLastD d ∈ l := by
  induction l with
  | nil => exact absurd rfl h
  | cons a as ih =>
    intro d
    cases has : as with
    | nil => simp [List.getLastD]
    | cons b bs =>
      rw [List.getLastD_cons]
      subst has
      exact List.mem_cons_of_mem a (ih (by simp) a)

theorem mem_pyDropI (c : Char) (n : Int) (l : List Char) (h : c ∈ pyDropI n l) : c ∈ l := by
  unfold pyDropI at h
  split at h
  · exact List.mem_of_mem_drop h
  · exact List.mem_of_mem_drop h

/-- Every character of a de-indented snippet is a newline or a character of
the snippet. -/
theorem mem_dedentLines1 (c : Char) (s : List Char) (l : List Char)
    (hl : l ∈ dedentLines1 s) (hc : c ∈ l) : c ∈ s := by
  unfold dedentLines1 at hl
  cases hsp : splitNl s with
  | nil => exact absurd hsp (splitNl_ne_nil s)
  | cons f rest =>
    rw [hsp] at hl
    simp only at hl
    rcases List.mem_cons.mp hl with h2 | h2
    · exact mem_of_mem_splitNl s l (by rw [hsp, h2]; exact List.mem_cons_self f rest) c hc
    · obtain ⟨r, hr, hmap⟩ := List.mem_map.mp h2
      have hcr : c ∈ r := by
        rw [← hmap] at hc
        exact mem_pyDropI c _ r hc
      exact mem_of_mem_splitNl s r (by rw [hsp]; exact List.mem_cons_of_mem f hr) c hcr

theorem mem_codeDedent (c : Char) (s : List Char) (h : c ∈ codeDedent s) :
    c = '\n' ∨ c ∈ s := by
  unfold codeDedent at h
  rcases mem_joinNl c _ h with h2 | ⟨l, hl, hcl⟩
  · exact Or.inl h2
  · right
    revert hl
    split
    · split
      · intro hl
        rcases List.mem_append.mp hl with h3 | h3
        · rcases List.mem_append.mp h3 with h4 | h4
          · simp only [List.mem_singleton] at h4
            subst h4
            cases hle : dedentLines1 s with
            | nil => rw [hle] at hcl; simp [List.headD] at hcl
            | cons a as =>
              refine mem_dedentLines1 c s _ ?_ hcl
              rw [hle]
              exact List.mem_cons_self a as
          · obtain ⟨r, hr, hmap⟩ := List.mem_map.mp h4
            refine mem_dedentLines1 c s r
              (List.mem_of_mem_drop (List.mem_of_mem_dropLast hr)) ?_
            rw [← hmap] at hcl
            exact List.mem_of_mem_drop hcl
        · simp only [List.mem_singleton] at h3
          subst h3
          cases hle : dedentLines1 s with
          | nil => rw [hle] at hcl; simp [List.getLastD] at hcl
          | cons a as =>
            exact mem_dedentLines1 c s _
              (getLastD_mem_lines (dedentLines1 s) (by rw [hle]; simp) []) hcl
      · intro hl
        exact mem_dedentLines1 c s l hl hcl
    · intro hl
      exact mem_dedentLines1 c s l hl hcl

theorem minLeadFold_some_le :
    ∀ xs : List (List Char), ∀ v : Nat,
      ∃ m, xs.foldl minLeadStep (some v) = some m ∧ m ≤ v := by
  intro xs
  induction xs with
  | nil => intro v; exact ⟨v, rfl, le_refl v⟩
  | cons x xs2 ih =>
    intro v
    rw [List.foldl_cons]
    by_cases hx : x = []
    · rw [show minLeadStep (some v) x = some v by unfold minLeadStep; rw [if_pos hx]]
      exact ih v
    · by_cases hlt : count_leading_spaces x < v
      · rw [show minLeadStep (some v) x = some (count_leading_spaces x) by
          unfold minLeadStep; rw [if_neg hx]; simp only; rw [if_pos hlt]]
        obtain ⟨m, hm, hle⟩ := ih (count_leading_spaces x)
        exact ⟨m, hm, le_trans hle (le_of_lt hlt)⟩
      · rw [show minLeadStep (some v) x = some v by
          unfold minLeadStep; rw [if_neg hx]; simp only; rw [if_neg hlt]]
        exact ih v

theorem minLeadFold_le :
    ∀ xs : List (List Char), ∀ L ∈ xs, L ≠ [] →
      ∀ acc : Option Nat,
      ∃ m, xs.foldl minLeadStep acc = some m ∧ m ≤ count_leading_spaces L := by
  intro xs
  induction xs with
  | nil => intro L hL; exact absurd hL (List.not_mem_nil L)
  | cons x xs2 ih =>
    intro L hL hLne acc
    rw [List.foldl_cons]
    rcases List.mem_cons.mp hL with h | h
    · subst h
      cases acc with
      | none =>
        rw [show minLeadStep none L = some (count_leading_spaces L) by
          unfold minLeadStep; rw [if_neg hLne]]
        exact minLeadFold_some_le xs2 (count_leading_spaces L)
      | some m =>
        by_cases hlt : count_leading_spaces L < m
        · rw [show minLeadStep (some m) L = some (count_leading_spaces L) by
            unfold minLeadStep; rw [if_neg hLne]; simp only; rw [if_pos hlt]]
          exact minLeadFold_some_le xs2 (count_leading_spaces L)
        · rw [show minLeadStep (some m) L = some m by
            unfold minLeadStep; rw [if_neg hLne]; simp only; rw [if_neg hlt]]
          obtain ⟨m2, hm2, hle2⟩ := minLeadFold_some_le xs2 m
          exact ⟨m2, hm2, le_trans hle2 (Nat.le_of_not_lt hlt)⟩
    · exact ih L h hLne (minLeadStep acc x)

theorem toNat_natCast_eq (n : Nat) : ((n : Int)).toNat = n := by omega

/-- Running the extraction loop on a docstring holding exactly one fenced
block (no other backticks anywhere) replaces the block by `$CODE_BLOCK_0`
and stores its de-indented text. -/
theorem c1_extract (pre M post : List Char)
    (hpre : '`' ∉ pre) (hM : '`' ∉ M) (hpost : '`' ∉ post) :
    pdCode (pre ++ (chars "```" ++ M ++ chars "```") ++ post) =
      (pre ++ markerFor 0 ++ post,
        [codeDedent (chars "```" ++ M ++ chars "```")]) := by
  have hfrm : pre ++ (chars "```" ++ M ++ chars "```") ++ post =
      pre ++ chars "```" ++ (M ++ chars "```" ++ post) := by
    simp [List.append_assoc]
  have hinf : (chars "```") <:+: pre ++ (chars "```" ++ M ++ chars "```") ++ post :=
    ⟨pre, M ++ chars "```" ++ post, by simp [List.append_assoc]⟩
  have hpateq : chars "```" = '`' :: chars "``" := rfl
  have hfind : pyFindI (pre ++ (chars "```" ++ M ++ chars "```") ++ post) (chars "```") =
      pre.length := by
    rw [hfrm]
    exact pyFindI_append (chars "```") (M ++ chars "```" ++ post) '`' (chars "``")
      hpateq pre hpre
  have hfa : fenceAt (pre ++ (chars "```" ++ M ++ chars "```") ++ post) =
      chars "```" ++ (M ++ chars "```" ++ post) := by
    unfold fenceAt
    rw [hfind, toNat_natCast_eq, hfrm, List.append_assoc, List.drop_left' rfl]
  have hfind2 : pyFindI ((chars "```" ++ (M ++ chars "```" ++ post)).drop 3) (chars "```") =
      M.length := by
    rw [List.drop_left' (show (chars "```").length = 3 from rfl)]
    have hsh : M ++ chars "```" ++ post = M ++ chars "```" ++ post := rfl
    exact pyFindI_append (chars "```") post '`' (chars "``") hpateq M hM
  have hsl : snipLen (pre ++ (chars "```" ++ M ++ chars "```") ++ post) = M.length + 6 := by
    unfold snipLen
    rw [hfa, hfind2]
    omega
  have hlen36 : (chars "```" ++ M ++ chars "```").length = M.length + 6 := by
    simp [chars]
  have hsn : snippetAt (pre ++ (chars "```" ++ M ++ chars "```") ++ post) =
      chars "```" ++ M ++ chars "```" := by
    unfold snippetAt
    rw [hfa, hsl]
    have hre : chars "```" ++ (M ++ chars "```" ++ post) =
        (chars "```" ++ M ++ chars "```") ++ post := by
      simp [List.append_assoc]
    rw [hre, List.take_left' hlen36]
  have hdr : (fenceAt (pre ++ (chars "```" ++ M ++ chars "```") ++ post)).drop
      (snipLen (pre ++ (chars "```" ++ M ++ chars "```") ++ post)) = post := by
    rw [hfa, hsl]
    have hre : chars "```" ++ (M ++ chars "```" ++ post) =
        (chars "```" ++ M ++ chars "```") ++ post := by
      simp [List.append_assoc]
    rw [hre, List.drop_left' hlen36]
  have hsnip_head : chars "```" ++ M ++ chars "```" =
      '`' :: (chars "``" ++ M ++ chars "```") := by
    simp [chars]
  have hrepl : pyReplace (pre ++ (chars "```" ++ M ++ chars "```") ++ post)
      (chars "```" ++ M ++ chars "```") (markerFor 0) =
      pre ++ markerFor 0 ++ post :=
    pyReplace_append_right_clean pre (chars "```" ++ M ++ chars "```") post (markerFor 0)
      '`' (chars "``" ++ M ++ chars "```") hsnip_head hpre hpost
  unfold pdCode
  rw [if_pos hinf]
  show extractCode ((pre ++ (chars "```" ++ M ++ chars "```") ++ post).length + 1) _ _ [] = _
  rw [show ∀ d t : List Char, extractCode
      ((pre ++ (chars "```" ++ M ++ chars "```") ++ post).length + 1) d t [] =
      if (chars "```") <:+: t then
        extractCode (pre ++ (chars "```" ++ M ++ chars "```") ++ post).length
          (pyReplace d (snippetAt t) (markerFor 0))
          ((fenceAt t).drop (snipLen t)) ([] ++ [codeDedent (snippetAt t)])
      else (d, []) from fun d t => rfl]
  rw [if_pos hinf, hsn, hdr, hrepl]
  rw [extractCode_no_fence post hpost _ _ _]
  simp


/-! ## Helper lemmas for the fenced-code-block pipeline -/

theorem pyDropI_zero (l : List Char) : pyDropI 0 l = l := by
  unfold pyDropI
  rw [if_pos (le_refl 0)]
  simp

theorem markerFor_zero : markerFor 0 = '$' :: chars "CODE_BLOCK_0" := by decide

theorem sectionLoop_no_hash (d : List Char) (hd : '#' ∉ d) :
    ∀ fuel shift : Nat, ∀ secs : List (List Char × List Char),
      sectionLoop fuel d shift secs = (d, secs) := by
  intro fuel shift secs
  cases fuel with
  | zero => rfl
  | succ f =>
    unfold sectionLoop
    have hfs : findSection (d.drop shift) = none := by
      unfold findSection
      exact findSectionGo_none _
        (hasTitle_false_of_no_hash _ (fun h => hd (List.mem_of_mem_drop h))) 0
    rw [hfs]

theorem mem_lstrip_part (c : Char) (x : List Char)
    (h : c ∈ joinNl ((splitNl x).map lstripSpaces)) : c = '\n' ∨ c ∈ x := by
  rcases mem_joinNl c _ h with h2 | ⟨l, hl, hcl⟩
  · exact Or.inl h2
  · obtain ⟨l0, hl0, hmap⟩ := List.mem_map.mp hl
    right
    refine mem_of_mem_splitNl x l0 hl0 c ?_
    have hc0 : c ∈ lstripSpaces l0 := by rw [hmap]; exact hcl
    exact (List.dropWhile_suffix _).mem hc0

theorem not_mem_lstrip_part (c : Char) (x : List Char) (hc : c ≠ '\n') (hx : c ∉ x) :
    c ∉ joinNl ((splitNl x).map lstripSpaces) := by
  intro h
  rcases mem_lstrip_part c x h with h2 | h2
  · exact hc h2
  · exact hx h2

theorem map_lstrip_ne_nil (x : List Char) : (splitNl x).map lstripSpaces ≠ [] := by
  intro h
  exact splitNl_ne_nil x (List.map_eq_nil_iff.mp h)

theorem nl_not_mem_marker_run (j : Nat) : '\n' ∉ List.replicate j ' ' ++ markerFor 0 := by
  intro h
  rcases List.mem_append.mp h with h | h
  · exact absurd (List.eq_of_mem_replicate h) (by decide)
  · revert h
    decide

theorem lstrip_marker (j : Nat) :
    lstripSpaces (List.replicate j ' ' ++ markerFor 0) = markerFor 0 := by
  unfold lstripSpaces
  rw [dropWhile_replicate_append]
  decide

theorem lstripLines_marker_decomp (pre0 post0 : List Char) (j : Nat) :
    lstripLines ((pre0 ++ '\n' :: List.replicate j ' ') ++ markerFor 0 ++ ('\n' :: post0)) =
      (joinNl ((splitNl pre0).map lstripSpaces) ++ ['\n']) ++ markerFor 0 ++
        ('\n' :: joinNl ((splitNl post0).map lstripSpaces)) := by
  have h1 : (pre0 ++ '\n' :: List.replicate j ' ') ++ markerFor 0 ++ ('\n' :: post0) =
      pre0 ++ '\n' :: ((List.replicate j ' ' ++ markerFor 0) ++ '\n' :: post0) := by
    simp [List.append_assoc]
  unfold lstripLines
  rw [h1, splitNl_append_nl pre0 ((List.replicate j ' ' ++ markerFor 0) ++ '\n' :: post0),
    splitNl_append_nl (List.replicate j ' ' ++ markerFor 0) post0,
    splitNl_of_not_mem (List.replicate j ' ' ++ markerFor 0) (nl_not_mem_marker_run j)]
  rw [List.map_append, List.map_append]
  simp only [List.map_cons, List.map_nil]
  rw [lstrip_marker j]
  rw [joinNl_append ((splitNl pre0).map lstripSpaces) _ (map_lstrip_ne_nil pre0) (by simp)]
  rw [List.singleton_append, joinNl_cons _ _ (map_lstrip_ne_nil post0)]
  simp [List.append_assoc]

theorem mem_snippet_parts (c : Char) (lang : List Char) (bodyLines : List (List Char)) (k : Nat)
    (h : c ∈ lang ++ '\n' :: joinNl bodyLines ++ '\n' :: List.replicate k ' ') :
    c = '\n' ∨ c = ' ' ∨ c ∈ lang ∨ ∃ L ∈ bodyLines, c ∈ L := by
  rcases List.mem_append.mp h with h | h
  · rcases List.mem_append.mp h with h | h
    · exact Or.inr (Or.inr (Or.inl h))
    · rcases List.mem_cons.mp h with h | h
      · exact Or.inl h
      · rcases mem_joinNl c bodyLines h with h | ⟨L, hL, hcL⟩
        · exact Or.inl h
        · exact Or.inr (Or.inr (Or.inr ⟨L, hL, hcL⟩))
  · rcases List.mem_cons.mp h with h | h
    · exact Or.inl h
    · exact Or.inr (Or.inl (List.eq_of_mem_replicate h))

theorem reinjectSections_nil (y : List Char) : reinjectSections [] y = y := rfl

theorem reinjectCode_single (b y : List Char) :
    reinjectCode 0 [b] y = pyReplace y (markerFor 0) b := rfl

theorem codeDedent_some_zero (s : List Char) (h : dedentLeading s = some 0) :
    codeDedent s = joinNl (dedentLines1 s) := by
  unfold codeDedent
  rw [h]
  rfl

theorem dedentLines1_eq (s : List Char) (f : List Char) (rest : List (List Char))
    (h : splitNl s = f :: rest) :
    dedentLines1 s = f :: rest.map (pyDropI (dedentNum s)) := by
  unfold dedentLines1
  rw [h]

theorem codeDedent_id_flush (F : List Char) (bodyLines : List (List Char))
    (hF : '\n' ∉ F) (hbody : bodyLines ≠ [])
    (hlines : ∀ L ∈ bodyLines, '\n' ∉ L)
    (hzero : ∃ L ∈ bodyLines, L ≠ [] ∧ count_leading_spaces L = 0) :
    codeDedent (F ++ '\n' :: (joinNl bodyLines ++ '\n' :: chars "```")) =
      F ++ '\n' :: (joinNl bodyLines ++ '\n' :: chars "```") := by
  have hsplit : splitNl (F ++ '\n' :: (joinNl bodyLines ++ '\n' :: chars "```")) =
      F :: (bodyLines ++ [chars "```"]) := by
    rw [splitNl_append_nl F (joinNl bodyLines ++ '\n' :: chars "```"),
      splitNl_of_not_mem F hF,
      splitNl_append_nl (joinNl bodyLines) (chars "```"),
      splitNl_joinNl bodyLines hbody hlines,
      splitNl_of_not_mem (chars "```") (by decide)]
    simp
  have hlast : (splitNl (F ++ '\n' :: (joinNl bodyLines ++ '\n' :: chars "```"))).getLastD [] =
      chars "```" := by
    rw [hsplit,
      show F :: (bodyLines ++ [chars "```"]) = (F :: bodyLines) ++ [chars "```"] from by simp]
    exact List.getLastD_concat _ _ _
  have hdnum : dedentNum (F ++ '\n' :: (joinNl bodyLines ++ '\n' :: chars "```")) = 0 := by
    unfold dedentNum
    rw [hlast]
    decide
  have hfun : pyDropI (0 : Int) = fun l => l := funext fun l => pyDropI_zero l
  have hdl1 : dedentLines1 (F ++ '\n' :: (joinNl bodyLines ++ '\n' :: chars "```")) =
      F :: (bodyLines ++ [chars "```"]) := by
    rw [dedentLines1_eq _ _ _ hsplit, hdnum, hfun]
    simp
  have hlead : dedentLeading (F ++ '\n' :: (joinNl bodyLines ++ '\n' :: chars "```")) =
      some 0 := by
    unfold dedentLeading
    rw [hdl1, List.drop_one, List.tail_cons, List.dropLast_concat]
    obtain ⟨L, hL, hLne, hLz⟩ := hzero
    obtain ⟨m, hm, hle⟩ := minLeadFold_le bodyLines L hL hLne none
    rw [hLz] at hle
    rw [hm]
    exact congrArg some (Nat.le_zero.mp hle)
  rw [codeDedent_some_zero _ hlead, hdl1,
    joinNl_cons F _ (by simp), joinNl_append bodyLines [chars "```"] hbody (by simp)]
  simp [joinNl]

/-- Claim C1 as stated is false: `process_docstring` de-indents an indented
fenced block (by the closing fence's column, then by the minimum interior
indentation), so the block's inner text is not reproduced byte-for-byte:
here the interior line `    a` comes out as `a`. -/
theorem c1_counterexample :
    (chars "```") <:+: chars "    ```\n    a\n    ```" ∧
    process_docstring (chars "    ```\n    a\n    ```") = chars "```\na\n```" ∧
    ¬ (chars "    a") <:+: process_docstring (chars "    ```\n    a\n    ```") := by
  have he : process_docstring (chars "    ```\n    a\n    ```") = chars "```\na\n```" := by
    decide
  refine ⟨by decide, he, ?_⟩
  rw [he]
  decide

/-- Claim C1, corrected: for a docstring made of prose, a newline, an
indentation run, a fenced code block (language word, body lines, a
possibly indented closing fence), a newline and more prose — with no
backtick outside the block and no `$`, `#` or `:` anywhere (so no other
substitution interferes) — the output of `process_docstring` contains the
block after the code de-indentation pass (`codeDedent`), and when the
closing fence is at column zero and some nonempty body line starts at
column zero the de-indentation is the identity, giving the block
byte-for-byte. -/
theorem c1_code_block_amended (pre0 lang post0 : List Char)
    (bodyLines : List (List Char)) (j k : Nat)
    (hbody : bodyLines ≠ [])
    (hpre : ∀ c ∈ pre0, c ≠ '`' ∧ c ≠ '$' ∧ c ≠ '#' ∧ c ≠ ':')
    (hpost : ∀ c ∈ post0, c ≠ '`' ∧ c ≠ '$' ∧ c ≠ '#' ∧ c ≠ ':')
    (hlang : ∀ c ∈ lang, c ≠ '`' ∧ c ≠ '\n' ∧ c ≠ ':')
    (hlines : ∀ L ∈ bodyLines, ∀ c ∈ L, c ≠ '`' ∧ c ≠ '\n' ∧ c ≠ ':') :
    codeDedent (chars "```" ++ (lang ++ '\n' :: joinNl bodyLines ++
        '\n' :: List.replicate k ' ') ++ chars "```") <:+:
      process_docstring ((pre0 ++ '\n' :: List.replicate j ' ') ++
        (chars "```" ++ (lang ++ '\n' :: joinNl bodyLines ++
          '\n' :: List.replicate k ' ') ++ chars "```") ++ ('\n' :: post0)) ∧
    (k = 0 → (∃ L ∈ bodyLines, L ≠ [] ∧ count_leading_spaces L = 0) →
      codeDedent (chars "```" ++ (lang ++ '\n' :: joinNl bodyLines ++
          '\n' :: List.replicate k ' ') ++ chars "```") =
        chars "```" ++ (lang ++ '\n' :: joinNl bodyLines ++
          '\n' :: List.replicate k ' ') ++ chars "```") := by
  constructor
  · have hMg : '`' ∉ lang ++ '\n' :: joinNl bodyLines ++ '\n' :: List.replicate k ' ' := by
      intro h
      rcases mem_snippet_parts '`' lang bodyLines k h with h | h | h | ⟨L, hL, hcL⟩
      · exact absurd h (by decide)
      · exact absurd h (by decide)
      · exact (hlang '`' h).1 rfl
      · exact (hlines L hL '`' hcL).1 rfl
    have hpreg : '`' ∉ pre0 ++ '\n' :: List.replicate j ' ' := by
      intro h
      rcases List.mem_append.mp h with h | h
      · exact (hpre '`' h).1 rfl
      · rcases List.mem_cons.mp h with h | h
        · exact absurd h (by decide)
        · exact absurd (List.eq_of_mem_replicate h) (by decide)
    have hpostg : '`' ∉ '\n' :: post0 := by
      intro h
      rcases List.mem_cons.mp h with h | h
      · exact absurd h (by decide)
      · exact (hpost '`' h).1 rfl
    have hext := c1_extract (pre0 ++ '\n' :: List.replicate j ' ')
      (lang ++ '\n' :: joinNl bodyLines ++ '\n' :: List.replicate k ' ')
      ('\n' :: post0) hpreg hMg hpostg
    have hd1hash : '#' ∉ (pre0 ++ '\n' :: List.replicate j ' ') ++ markerFor 0 ++
        ('\n' :: post0) := by
      intro h
      rcases List.mem_append.mp h with h | h
      · rcases List.mem_append.mp h with h | h
        · rcases List.mem_append.mp h with h | h
          · exact (hpre '#' h).2.2.1 rfl
          · rcases List.mem_cons.mp h with h | h
            · exact absurd h (by decide)
            · exact absurd (List.eq_of_mem_replicate h) (by decide)
        · revert h
          decide
      · rcases List.mem_cons.mp h with h | h
        · exact absurd h (by decide)
        · exact (hpost '#' h).2.2.1 rfl
    have hsec : pdSections ((pre0 ++ '\n' :: List.replicate j ' ') ++
        (chars "```" ++ (lang ++ '\n' :: joinNl bodyLines ++
          '\n' :: List.replicate k ' ') ++ chars "```") ++ ('\n' :: post0)) =
        ((pre0 ++ '\n' :: List.replicate j ' ') ++ markerFor 0 ++ ('\n' :: post0), []) := by
      unfold pdSections
      rw [hext]
      exact sectionLoop_no_hash _ hd1hash _ 0 []
    have h2 : (pdCode ((pre0 ++ '\n' :: List.replicate j ' ') ++
        (chars "```" ++ (lang ++ '\n' :: joinNl bodyLines ++
          '\n' :: List.replicate k ' ') ++ chars "```") ++ ('\n' :: post0))).2 =
        [codeDedent (chars "```" ++ (lang ++ '\n' :: joinNl bodyLines ++
          '\n' :: List.replicate k ' ') ++ chars "```")] := by
      rw [hext]
    have h3 : (pdSections ((pre0 ++ '\n' :: List.replicate j ' ') ++
        (chars "```" ++ (lang ++ '\n' :: joinNl bodyLines ++
          '\n' :: List.replicate k ' ') ++ chars "```") ++ ('\n' :: post0))).1 =
        (pre0 ++ '\n' :: List.replicate j ' ') ++ markerFor 0 ++ ('\n' :: post0) := by
      rw [hsec]
    have h4 : (pdSections ((pre0 ++ '\n' :: List.replicate j ' ') ++
        (chars "```" ++ (lang ++ '\n' :: joinNl bodyLines ++
          '\n' :: List.replicate k ' ') ++ chars "```") ++ ('\n' :: post0))).2 =
        ([] : List (List Char × List Char)) := by
      rw [hsec]
    have hcb : ':' ∉ codeDedent (chars "```" ++ (lang ++ '\n' :: joinNl bodyLines ++
        '\n' :: List.replicate k ' ') ++ chars "```") := by
      intro h
      rcases mem_codeDedent ':' _ h with h | h
      · exact absurd h (by decide)
      · rcases List.mem_append.mp h with h | h
        · rcases List.mem_append.mp h with h | h
          · revert h
            decide
          · rcases mem_snippet_parts ':' lang bodyLines k h with h | h | h | ⟨L, hL, hcL⟩
            · exact absurd h (by decide)
            · exact absurd h (by decide)
            · exact (hlang ':' h).2.2 rfl
            · exact (hlines L hL ':' hcL).2.2 rfl
        · revert h
          decide
    have hcolon : ':' ∉ (joinNl ((splitNl pre0).map lstripSpaces) ++ ['\n']) ++
        codeDedent (chars "```" ++ (lang ++ '\n' :: joinNl bodyLines ++
          '\n' :: List.replicate k ' ') ++ chars "```") ++
        ('\n' :: joinNl ((splitNl post0).map lstripSpaces)) := by
      intro h
      rcases List.mem_append.mp h with h | h
      · rcases List.mem_append.mp h with h | h
        · rcases List.mem_append.mp h with h | h
          · exact not_mem_lstrip_part ':' pre0 (by decide)
              (fun hm => (hpre ':' hm).2.2.2 rfl) h
          · exact absurd (List.mem_singleton.mp h) (by decide)
        · exact hcb h
      · rcases List.mem_cons.mp h with h | h
        · exact absurd h (by decide)
        · exact not_mem_lstrip_part ':' post0 (by decide)
            (fun hm => (hpost ':' hm).2.2.2 rfl) h
    have hnp : ¬ (chars ":param") <:+:
        (joinNl ((splitNl pre0).map lstripSpaces) ++ ['\n']) ++
        codeDedent (chars "```" ++ (lang ++ '\n' :: joinNl bodyLines ++
          '\n' :: List.replicate k ' ') ++ chars "```") ++
        ('\n' :: joinNl ((splitNl post0).map lstripSpaces)) :=
      fun hinf => hcolon (hinf.mem (by decide))
    have hnr : ¬ (chars ":return:") <:+:
        (joinNl ((splitNl pre0).map lstripSpaces) ++ ['\n']) ++
        codeDedent (chars "```" ++ (lang ++ '\n' :: joinNl bodyLines ++
          '\n' :: List.replicate k ' ') ++ chars "```") ++
        ('\n' :: joinNl ((splitNl post0).map lstripSpaces)) :=
      fun hinf => hcolon (hinf.mem (by decide))
    have hdA : '$' ∉ joinNl ((splitNl pre0).map lstripSpaces) ++ ['\n'] := by
      intro h
      rcases List.mem_append.mp h with h | h
      · exact not_mem_lstrip_part '$' pre0 (by decide)
          (fun hm => (hpre '$' hm).2.1 rfl) h
      · exact absurd (List.mem_singleton.mp h) (by decide)
    have hdB : '$' ∉ '\n' :: joinNl ((splitNl post0).map lstripSpaces) := by
      intro h
      rcases List.mem_cons.mp h with h | h
      · exact absurd h (by decide)
      · exact not_mem_lstrip_part '$' post0 (by decide)
          (fun hm => (hpost '$' hm).2.1 rfl) h
    have hfinal : process_docstring ((pre0 ++ '\n' :: List.replicate j ' ') ++
        (chars "```" ++ (lang ++ '\n' :: joinNl bodyLines ++
          '\n' :: List.replicate k ' ') ++ chars "```") ++ ('\n' :: post0)) =
        (joinNl ((splitNl pre0).map lstripSpaces) ++ ['\n']) ++
        codeDedent (chars "```" ++ (lang ++ '\n' :: joinNl bodyLines ++
          '\n' :: List.replicate k ' ') ++ chars "```") ++
        ('\n' :: joinNl ((splitNl post0).map lstripSpaces)) := by
      unfold process_docstring
      rw [h2, h3, h4]
      rw [subTitle_id _ (hasTitle_false_of_no_hash _ hd1hash)]
      rw [reinjectSections_nil, lstripLines_marker_decomp pre0 post0 j, reinjectCode_single]
      rw [pyReplace_append_right_clean _ _ _ _ '$' (chars "CODE_BLOCK_0")
        markerFor_zero hdA hdB]
      rw [ pyReplace1_of_not_infix _ _ _ hnp, subParam_id _ hnp, subRetCap_id _ hnr,
        pyReplace_of_not_infix _ _ _ hnr]
    rw [hfinal]
    exact ⟨_, _, rfl⟩
  · intro hk hzero
    subst hk
    have hresh : chars "```" ++ (lang ++ '\n' :: joinNl bodyLines ++
        '\n' :: List.replicate 0 ' ') ++ chars "```" =
        (chars "```" ++ lang) ++ '\n' :: (joinNl bodyLines ++ '\n' :: chars "```") := by
      simp [List.append_assoc]
    rw [hresh]
    refine codeDedent_id_flush (chars "```" ++ lang) bodyLines ?_ hbody ?_ hzero
    · intro h
      rcases List.mem_append.mp h with h | h
      · revert h
        decide
      · exact (hlang '\n' h).2.1 rfl
    · intro L hL hc
      exact (hlines L hL '\n' hc).2.1 rfl

/-- Witness for the amended C1 at a concrete docstring: a block fenced with
a `python` language word and the flush body line `x = 1`. -/
theorem c1_witness :
    codeDedent (chars "```" ++ (chars "python" ++ '\n' :: joinNl [chars "x = 1"] ++
        '\n' :: List.replicate 0 ' ') ++ chars "```") <:+:
      process_docstring ((chars "Doc" ++ '\n' :: List.replicate 4 ' ') ++
        (chars "```" ++ (chars "python" ++ '\n' :: joinNl [chars "x = 1"] ++
          '\n' :: List.replicate 0 ' ') ++ chars "```") ++ ('\n' :: chars "end")) ∧
    codeDedent (chars "```" ++ (chars "python" ++ '\n' :: joinNl [chars "x = 1"] ++
        '\n' :: List.replicate 0 ' ') ++ chars "```") =
      chars "```" ++ (chars "python" ++ '\n' :: joinNl [chars "x = 1"] ++
        '\n' :: List.replicate 0 ' ') ++ chars "```" :=
  ⟨(c1_code_block_amended (chars "Doc") (chars "python") (chars "end") [chars "x = 1"] 4 0
      (by decide) (by decide) (by decide) (by decide) (by decide)).1,
    (c1_code_block_amended (chars "Doc") (chars "python") (chars "end") [chars "x = 1"] 4 0
      (by decide) (by decide) (by decide) (by decide) (by decide)).2 rfl (by decide)⟩

end Autogen
